import Mathlib

/-!
# cj : CSV to JSON converter — verification development

A shallow embedding of the CSV reader (`src/csv_parser.c`), the numeric
classifier (`src/utils.c`), the JSON renderer (`src/json_output.c`) and the
command line entry point (`src/main.c`).

Modelling conventions.

* A byte is a `Char`.  An input file is the list of its bytes (`List Char`);
  `fgetc` takes the head of the list, `EOF` is the empty list and `ungetc`
  puts one character back in front.
* A C string (`char*`) is the list of the characters that precede its
  terminating NUL.  The only place where raw bytes become a C string is the
  return of `read_csv_line`, where the buffer is cut at its first NUL
  (`cstr`).
* A `NULL` result is `none`.  Allocation never fails in the model, so the
  only remaining source of `none` is a loop running out of fuel.
* Buffers are lists, without a capacity.  The capacity of the line buffer of
  `read_csv_line` is followed separately, by `read_csv_line_sizes`, the same
  loop on the pair (`length`, `capacity`).
* Standard output is the list of the calls `print_json` makes, one `Tok` per
  call (a call of `print_json_value` counts as one, with the text it
  prints); the text written is `render` of that list.
-/

namespace CJ

/-! ## Characters -/

/-- The terminating byte of a C string. -/
abbrev NUL : Char := Char.ofNat 0
/-- The double quote character (byte 34). -/
abbrev DQ : Char := Char.ofNat 34
/-- The single quote character (byte 39). -/
abbrev SQ : Char := Char.ofNat 39
/-- The backslash character (byte 92). -/
abbrev BSL : Char := Char.ofNat 92

/-- The C string held by a buffer: the bytes before the first NUL. -/
def cstr : List Char → List Char
  | [] => []
  | c :: rest => if c = NUL then [] else c :: cstr rest

/-! ## `read_csv_line` (csv_parser.c, lines 3-60) -/

/-- The `while ((c = fgetc(file)) != EOF)` loop of `read_csv_line`.
`inq` and `q` are `in_quotes` and `quote_char`, `line` is the buffer filled so
far.  The result is the buffer, the unread input, and whether the loop ended
because `fgetc` returned `EOF` (`true`) or through `break` (`false`). -/
def read_csv_line_loop (inq : Bool) (q : Char) (line : List Char) :
    List Char → List Char × List Char × Bool
  | [] => (line, [], true)
  | c :: rest =>
    if inq = false ∧ (c = DQ ∨ c = SQ) then
      read_csv_line_loop true c (line ++ [c]) rest
    else if inq = true ∧ c = q then
      match rest with
      | [] => (line ++ [c], [], true)
      | next_c :: rest2 =>
        if next_c = q then
          read_csv_line_loop inq q (line ++ [c, next_c]) rest2
        else
          read_csv_line_loop false q (line ++ [c]) (next_c :: rest2)
    else if inq = false ∧ (c = '\n' ∨ c = '\r') then
      if c = '\r' then
        match rest with
        | [] => (line, [], false)
        | next_c :: rest2 =>
          if next_c = '\n' then (line, rest2, false) else (line, rest, false)
      else (line, rest, false)
    else
      read_csv_line_loop inq q (line ++ [c]) rest

/-- Embedding of `read_csv_line`: the next logical line (or `none` for the
`NULL` returned at end of input) together with the input left unread. -/
def read_csv_line (file : List Char) : Option (List Char) × List Char :=
  match read_csv_line_loop false NUL [] file with
  | (line, rest, eof) =>
    if line.length = 0 ∧ eof = true then (none, rest) else (some (cstr line), rest)

/-! ## `parse_csv_line` (csv_parser.c, lines 62-177) -/

/-- The loop `while (*ptr == ' ' || *ptr == '\t') ptr++;`. -/
def skip_ws : List Char → List Char
  | [] => []
  | c :: rest => if c = ' ' ∨ c = '\t' then skip_ws rest else c :: rest

/-- The field accumulation loop `while (*ptr && (in_quotes || *ptr != ','))`
(lines 106-147): returns the accumulated field and the new `ptr`. -/
def parse_field_loop (inq : Bool) (q : Char) (field : List Char) :
    List Char → List Char × List Char
  | [] => (field, [])
  | c :: rest =>
    if inq = false ∧ c = ',' then (field, c :: rest)
    else if inq = true ∧ c = q then
      match rest with
      | [] => (field, [])
      | next_c :: rest2 =>
        if next_c = q then parse_field_loop inq q (field ++ [c]) rest2
        else parse_field_loop false q field (next_c :: rest2)
    else parse_field_loop inq q (field ++ [c]) rest

/-- Lines 151-157: skip leading spaces and tabs of the field, then overwrite
trailing spaces and tabs with NUL, walking back from the end. -/
def trim_field (field : List Char) : List Char :=
  (skip_ws (skip_ws field).reverse).reverse

/-- Lines 100-104: an opening quote sets `quote_char`, `in_quotes` and
advances `ptr`. -/
def open_quote : List Char → Bool × Char × List Char
  | [] => (false, NUL, [])
  | c :: rest => if c = DQ ∨ c = SQ then (true, c, rest) else (false, NUL, c :: rest)

/-- Line 173: `if (*ptr == ',') ptr++;`. -/
def skip_comma : List Char → List Char
  | [] => []
  | c :: rest => if c = ',' then rest else c :: rest

/-- One pass of the body of the outer loop (lines 84-173): the field stored
and the new `ptr`. -/
def parse_one_field (ptr : List Char) : List Char × List Char :=
  match open_quote (skip_ws ptr) with
  | (inq, q, ptr2) =>
    match parse_field_loop inq q [] ptr2 with
    | (field, ptr3) => (trim_field field, skip_comma ptr3)

/-- The outer loop `while (*ptr)` of `parse_csv_line`.  `none` means that the
fuel ran out before the loop ended. -/
def parse_csv_line_loop : Nat → List Char → Option (List (List Char))
  | _, [] => some []
  | 0, _ :: _ => none
  | fuel + 1, c :: rest =>
    match parse_csv_line_loop fuel (parse_one_field (c :: rest)).2 with
    | none => none
    | some fields => some ((parse_one_field (c :: rest)).1 :: fields)

/-- Embedding of `parse_csv_line`: the fields of a logical line. -/
def parse_csv_line (line : List Char) : Option (List (List Char)) :=
  parse_csv_line_loop line.length line

/-! ## `read_csv` (csv_parser.c, lines 179-262) -/

/-- The table `CSVData`: `headers` with `num_headers` its length, `data` with
`num_rows` its length and `field_capacities[i]` the length of row `i`. -/
structure CSVData where
  headers : List (List Char)
  data : List (List (List Char))
deriving DecidableEq, Repr

/-- The row loop `while ((line = read_csv_line(file)) != NULL)` (lines
229-258).  `none` means that the fuel ran out before the loop ended. -/
def read_csv_rows : Nat → List Char → List (List (List Char)) →
    Option (List (List (List Char)))
  | 0, _, _ => none
  | fuel + 1, file, data =>
    match read_csv_line file with
    | (none, _) => some data
    | (some line, rest) =>
      if line.length = 0 then read_csv_rows fuel rest data
      else
        match parse_csv_line line with
        | none => some data
        | some fields => read_csv_rows fuel rest (data ++ [fields])

/-- Embedding of `read_csv` on the contents of an opened file. -/
def read_csv (file : List Char) : Option CSVData :=
  match read_csv_line file with
  | (none, rest) =>
    match read_csv_rows (rest.length + 1) rest [] with
    | none => none
    | some data => some ⟨[], data⟩
  | (some line, rest) =>
    match parse_csv_line line with
    | none => none
    | some headers =>
      match read_csv_rows (rest.length + 1) rest [] with
      | none => none
      | some data => some ⟨headers, data⟩

/-! ## `is_numeric` (utils.c, lines 19-33) -/

/-- The C `isdigit` on the characters `0` to `9`. -/
def isdigit (c : Char) : Bool := decide ('0' ≤ c ∧ c ≤ '9')

/-- The loop `while (*str)` of `is_numeric`, with the flag `has_dot`. -/
def is_numeric_loop (has_dot : Bool) : List Char → Bool
  | [] => true
  | c :: rest =>
    if c = '.' then
      if has_dot = true then false else is_numeric_loop true rest
    else if isdigit c = false then false
    else is_numeric_loop has_dot rest

/-- Embedding of `is_numeric`. -/
def is_numeric : List Char → Bool
  | [] => false
  | c :: rest =>
    if c = '-' ∨ c = '+' then is_numeric_loop false rest
    else is_numeric_loop false (c :: rest)

/-! ## `print_json_value` and `print_json` (json_output.c) -/

/-- What one iteration of the escaping loop (lines 11-23) prints for `c`. -/
def escape_char (c : Char) : List Char :=
  if c = DQ then [BSL, DQ]
  else if c = BSL then [BSL, BSL]
  else if c = '\n' then [BSL, 'n']
  else if c = '\r' then [BSL, 'r']
  else if c = '\t' then [BSL, 't']
  else [c]

/-- The escaping loop `for (p = value; *p; p++)` of `print_json_value`. -/
def escape_loop : List Char → List Char
  | [] => []
  | c :: rest => escape_char c ++ escape_loop rest

/-- Embedding of `print_json_value`: the text it prints. -/
def print_json_value (value : List Char) : List Char :=
  if value.length = 0 then [DQ, DQ]
  else if is_numeric value = true then value
  else [DQ] ++ escape_loop value ++ [DQ]

/-- One call made by `print_json`, by call site. -/
inductive Tok where
  /-- A call printing punctuation or layout: `[`, `\x7b`, `,`, newline, indent. -/
  | punct (s : List Char)
  /-- The call `printf("\"%s\": ", csv->headers[j])` of line 43. -/
  | key (header : List Char)
  /-- A value: `print_json_value(field)` (line 46) or `printf("\"\"")` (line 48). -/
  | value (text : List Char)
deriving DecidableEq, Repr

/-- The text a call writes to standard output. -/
def Tok.text : Tok → List Char
  | .punct s => s
  | .key header => [DQ] ++ header ++ [DQ, ':', ' ']
  | .value text => text

/-- The text written by a sequence of calls. -/
def render : List Tok → List Char
  | [] => []
  | t :: ts => t.text ++ render ts

/-- The call `if (styled) printf(s)`. -/
def if_styled (styled : Bool) (s : List Char) : List Tok :=
  if styled = true then [Tok.punct s] else []

/-- The body of the header loop (lines 42-54) at index `j` for a row. -/
def print_json_member (csv : CSVData) (styled : Bool) (row : List (List Char))
    (j : Nat) : List Tok :=
  let max_fields := if row.length < csv.headers.length then row.length else csv.headers.length
  if_styled styled [' ', ' ', ' ', ' '] ++
  [Tok.key (csv.headers.getD j [])] ++
  [if j < max_fields then Tok.value (print_json_value (row.getD j []))
   else Tok.value [DQ, DQ]] ++
  (if j + 1 < csv.headers.length then [Tok.punct [',']] else []) ++
  if_styled styled ['\n']

/-- The loop `for (int j = 0; j < csv->num_headers; j++)`, from index `j`
with `n` iterations left. -/
def print_json_members (csv : CSVData) (styled : Bool) (row : List (List Char)) :
    Nat → Nat → List Tok
  | 0, _ => []
  | n + 1, j => print_json_member csv styled row j ++ print_json_members csv styled row n (j + 1)

/-- The body of the row loop (lines 34-63) at index `i`. -/
def print_json_object (csv : CSVData) (styled : Bool) (i : Nat) : List Tok :=
  if_styled styled [' ', ' '] ++
  [Tok.punct ['\x7b']] ++
  if_styled styled ['\n'] ++
  print_json_members csv styled (csv.data.getD i []) csv.headers.length 0 ++
  if_styled styled [' ', ' '] ++
  [Tok.punct ['\x7d']] ++
  (if i + 1 < csv.data.length then [Tok.punct [',']] else []) ++
  if_styled styled ['\n']

/-- The loop `for (int i = 0; i < csv->num_rows; i++)`, from index `i` with
`n` iterations left. -/
def print_json_objects (csv : CSVData) (styled : Bool) : Nat → Nat → List Tok
  | 0, _ => []
  | n + 1, i => print_json_object csv styled i ++ print_json_objects csv styled n (i + 1)

/-- The `printf` calls made by `print_json`. -/
def print_json_calls (csv : CSVData) (styled : Bool) : List Tok :=
  [Tok.punct ['[']] ++ if_styled styled ['\n'] ++
  print_json_objects csv styled csv.data.length 0 ++
  [Tok.punct [']']] ++ if_styled styled ['\n']

/-- Embedding of `print_json`: the text written to standard output. -/
def print_json (csv : CSVData) (styled : Bool) : List Char :=
  render (print_json_calls csv styled)

/-! ## `main` (main.c) and the texts of utils.c -/

/-- The text printed by `print_usage` (utils.c, lines 3-9). -/
def print_usage : List Char :=
  "Usage:\n".toList ++
  "  cj [filename]           Convert CSV to JSON\n".toList ++
  "  cj version              Show version\n".toList ++
  "  cj --styled|-s [file]   Convert CSV to formatted JSON\n".toList ++
  "  cj                      Show this help\n".toList

/-- The text printed by `print_version` (utils.c, lines 11-17); the result of
`get_platform_info()`, fixed when the program is built, is a parameter. -/
def print_version (platform_info : List Char) : List Char :=
  "cj version 1.0.0\n".toList ++
  "Built for: ".toList ++ platform_info ++ "\n".toList ++
  "Repository: https://github.com/iqbqioza/cj\n".toList ++
  "License: MIT\n".toList ++
  "Copyright (c) 2025 Takuya Okada(@iqbqioza) and cj contributors\n".toList

/-- The call `read_csv(filename)` with its `fopen`: `files` gives the contents
of the files that can be opened. -/
def read_csv_file (files : List Char → Option (List Char)) (filename : List Char) :
    Option CSVData :=
  match files filename with
  | none => none
  | some file => read_csv file

/-- Embedding of `main`: the text written to standard output and the exit
status, for the arguments `argv[1]`, `argv[2]`, ... -/
def main (files : List Char → Option (List Char)) (platform_info : List Char)
    (args : List (List Char)) : List Char × Nat :=
  match args with
  | [] => (print_usage, 0)
  | [arg1] =>
    if arg1 = "version".toList then (print_version platform_info, 0)
    else
      match read_csv_file files arg1 with
      | none => ([], 1)
      | some csv => (print_json csv false ++ ['\n'], 0)
  | [arg1, arg2] =>
    if arg1 = "--styled".toList ∨ arg1 = "-s".toList then
      match read_csv_file files arg2 with
      | none => ([], 1)
      | some csv => (print_json csv true, 0)
    else (print_usage, 1)
  | _ => (print_usage, 1)

/-! ## Vocabulary of the claims: written forms, observations, patterns -/

/-- The specification's quoting of a field body: every occurrence of the
quote character `q` is doubled, all other characters are copied. -/
def double_quotes (q : Char) : List Char → List Char
  | [] => []
  | c :: s => if c = q then q :: q :: double_quotes q s else c :: double_quotes q s

/-- The specification's written form of a field: `q`, the body with every
`q` doubled, `q`. -/
def quote_field (q : Char) (f : List Char) : List Char :=
  [q] ++ double_quotes q f ++ [q]

/-- A quote character: the double or the single quote. -/
def IsQuote (q : Char) : Prop := q = DQ ∨ q = SQ

instance (q : Char) : Decidable (IsQuote q) := inferInstanceAs (Decidable (_ ∨ _))

/-- A character that is neither a quote character nor a line terminator. -/
def Plain (c : Char) : Prop := c ≠ DQ ∧ c ≠ SQ ∧ c ≠ '\n' ∧ c ≠ '\r'

instance (c : Char) : Decidable (Plain c) := inferInstanceAs (Decidable (_ ∧ _))

/-- The specification's joining of the written fields of a record with `,`. -/
def join_commas : List (List Char) → List Char
  | [] => []
  | [f] => f
  | f :: g :: fs => f ++ ',' :: join_commas (g :: fs)

/-- The written form of a record: each field `p.2` quoted with its own quote
character `p.1`, the written fields joined with `,`. -/
def encode_record (r : List (Char × List Char)) : List Char :=
  join_commas (r.map (fun p => quote_field p.1 p.2))

/-- A space or a tab. -/
def is_blank (c : Char) : Bool := c == ' ' || c == '\t'

/-- The specification's trimming: leading and trailing spaces and tabs
removed. -/
def trimmed (f : List Char) : List Char :=
  (f.dropWhile is_blank).rdropWhile is_blank

/-- The specification's joining of physical lines with a line feed. -/
def join_lines : List (List Char) → List Char
  | [] => []
  | [l] => l
  | l :: m :: ls => l ++ '\n' :: join_lines (m :: ls)

/-- A text file made of the physical lines `ls` joined by line feeds, with
(`final = true`) or without a line feed after the last line. -/
def text_of_lines (ls : List (List Char)) (final : Bool) : List Char :=
  join_lines ls ++ (if final = true then ['\n'] else [])

/-- A record terminator of the specification's written form: LF or CR LF. -/
def IsTerminator (t : List Char) : Prop := t = ['\n'] ∨ t = ['\r', '\n']

instance (t : List Char) : Decidable (IsTerminator t) := inferInstanceAs (Decidable (_ ∨ _))

/-- The written form of a table: every record written by `encode_record`
and followed by its own terminator. -/
def encode_table : List (List (Char × List Char) × List Char) → List Char
  | [] => []
  | (r, t) :: rs => encode_record r ++ t ++ encode_table rs

/-- A field with no space or tab at either end. -/
def NoEdgeBlank (f : List Char) : Prop :=
  f.head?.map is_blank ≠ some true ∧ f.getLast?.map is_blank ≠ some true

instance (f : List Char) : Decidable (NoEdgeBlank f) := inferInstanceAs (Decidable (_ ∧ _))

/-- The rows stored from a written table: the fields of each record. -/
def rows_of (rs : List (List (Char × List Char) × List Char)) : List (List (List Char)) :=
  rs.map (fun r => r.1.map (fun p => p.2))

/-- The conditions of the written form on one record: at least one field,
every quote character a quote, no NUL and no blank edge in a field, and a
terminator LF or CR LF. -/
def WellWritten (r : List (Char × List Char) × List Char) : Prop :=
  r.1 ≠ [] ∧ (∀ p ∈ r.1, IsQuote p.1 ∧ NUL ∉ p.2 ∧ NoEdgeBlank p.2) ∧ IsTerminator r.2

instance (r : List (Char × List Char) × List Char) : Decidable (WellWritten r) :=
  inferInstanceAs (Decidable (_ ∧ _))

/-- The number of objects opened in a sequence of calls: the calls
`printf("\x7b")` of line 35. -/
def count_objects (ts : List Tok) : Nat :=
  ts.count (Tok.punct ['\x7b'])

/-- The keys printed by a sequence of calls, in order. -/
def keys_of : List Tok → List (List Char)
  | [] => []
  | Tok.key header :: ts => header :: keys_of ts
  | _ :: ts => keys_of ts

/-- The specification's reading back of an escaped string, left to right:
each of the five two-character sequences gives its single byte, every other
character is copied. -/
def unescape : List Char → List Char
  | [] => []
  | [c] => [c]
  | c :: d :: rest =>
    if c = BSL ∧ d = DQ then DQ :: unescape rest
    else if c = BSL ∧ d = BSL then BSL :: unescape rest
    else if c = BSL ∧ d = 'n' then '\n' :: unescape rest
    else if c = BSL ∧ d = 'r' then '\r' :: unescape rest
    else if c = BSL ∧ d = 't' then '\t' :: unescape rest
    else c :: unescape (d :: rest)

/-- The specification's numeric pattern: an optional single leading `+` or
`-`, then a non-empty body of ASCII digits and dots with at most one dot. -/
def NumericPattern (s : List Char) : Prop :=
  ∃ sign body, s = sign ++ body ∧ (sign = [] ∨ sign = ['+'] ∨ sign = ['-']) ∧
    body ≠ [] ∧ (∀ c ∈ body, isdigit c = true ∨ c = '.') ∧ body.count '.' ≤ 1

/-- The values printed by a sequence of calls, in order. -/
def values_of : List Tok → List (List Char)
  | [] => []
  | Tok.value text :: ts => text :: values_of ts
  | _ :: ts => values_of ts

/-- The value the claims give to header index `j` of a row: the rendered
field when the row has one at that index, two double quotes otherwise. -/
def value_at (row : List (List Char)) (j : Nat) : List Char :=
  if j < row.length then print_json_value (row.getD j []) else [DQ, DQ]

/-- A row padded with empty fields up to `h` fields. -/
def pad_row (h : Nat) (row : List (List Char)) : List (List Char) :=
  row ++ List.replicate (h - row.length) []

/-- The member of the claims for header `h` at index `j` of a row: the key
between double quotes, a colon, a space, and the value. -/
def member_text (row : List (List Char)) (j : Nat) (h : List Char) : List Char :=
  [DQ] ++ h ++ [DQ, ':', ' '] ++ value_at row j

/-- The styled layout of C13, written from the claim: `[`, LF, then for each
row two spaces, the opening brace and LF, one line per header made of four
spaces, the member, a comma unless it is the last header, and LF, then two
spaces and the closing brace, a comma unless it is the last row, and LF, and
finally `]`, LF. -/
def styled_layout (csv : CSVData) : List Char :=
  ['[', '\n'] ++
  (csv.data.enum.map (fun r =>
    [' ', ' ', '\x7b', '\n'] ++
    (csv.headers.enum.map (fun m =>
      [' ', ' ', ' ', ' '] ++ member_text r.2 m.1 m.2 ++
      (if m.1 + 1 < csv.headers.length then [','] else []) ++ ['\n'])).flatten ++
    [' ', ' ', '\x7d'] ++ (if r.1 + 1 < csv.data.length then [','] else []) ++ ['\n'])).flatten ++
  [']', '\n']

/-- The compact layout of C14, written from the claim: `[`, the objects
separated by single commas, `]`; an object is the opening brace, its members
separated by single commas, the closing brace. -/
def compact_layout (csv : CSVData) : List Char :=
  ['['] ++
  [','].intercalate (csv.data.map (fun row =>
    ['\x7b'] ++
    [','].intercalate (csv.headers.enum.map (fun m => member_text row m.1 m.2)) ++
    ['\x7d'])) ++
  [']']


/-- The text a call writes around the header name or the rendered value it
carries: all of a punctuation call, the frame `"": ` of a key call, nothing
of a value call. -/
def inserted : Tok → List Char
  | .punct s => s
  | .key _ => [DQ, DQ, ':', ' ']
  | .value _ => []

/-- A space, tab or line feed: the characters removed by the test helper
`compare_json_output`. -/
def is_space (c : Char) : Bool := c == ' ' || c == '\n' || c == '\t'

/-- The punctuation calls of compact mode. -/
def CompactPunct (t : Tok) : Prop :=
  ∀ s, t = Tok.punct s → s = ['['] ∨ s = [']'] ∨ s = ['\x7b'] ∨ s = ['\x7d'] ∨ s = [',']


/-- The fields C16 gives to a line without quote characters: the pieces of
the line split at every `,`, without the final piece when the line ends with
`,`, each piece trimmed of leading and trailing spaces and tabs. -/
def unquoted_fields (line : List Char) : List (List Char) :=
  (if line.getLast? = some ',' then (line.splitOn ',').dropLast
   else line.splitOn ',').map trimmed


/-- What `read_csv_line` may drop between the line and the unread input:
nothing (at end of input), LF, CR, or CR LF. -/
def IsLineEnd (t : List Char) : Prop :=
  t = [] ∨ t = ['\n'] ∨ t = ['\r'] ∨ t = ['\r', '\n']

instance (t : List Char) : Decidable (IsLineEnd t) := inferInstanceAs (Decidable (_ ∨ _))


/-- The JSON number token of C20: an optional `-`, an integer part that is
`0` or a non-zero digit followed by digits, then optionally `.` followed by
at least one digit. -/
def JsonNumber (v : List Char) : Prop :=
  ∃ sign int frac, v = sign ++ int ++ frac ∧ (sign = [] ∨ sign = ['-']) ∧
    (int = ['0'] ∨ ∃ d ds, int = d :: ds ∧ isdigit d = true ∧ d ≠ '0' ∧
      ∀ c ∈ ds, isdigit c = true) ∧
    (frac = [] ∨ ∃ ds, frac = '.' :: ds ∧ ds ≠ [] ∧ ∀ c ∈ ds, isdigit c = true)


/-- The normalisation of the test helper `compare_json_output` (test_cj.c,
lines 64-70): every space, line feed and tab is removed. -/
def strip_spaces : List Char → List Char
  | [] => []
  | c :: rest =>
    if c = ' ' ∨ c = '\n' ∨ c = '\t' then strip_spaces rest else c :: strip_spaces rest


/-! ## The line buffer of `read_csv_line` as sizes -/

/-- The capacity after the check at the top of the loop (lines 14-22):
doubled when `length >= capacity - 1`. -/
def grow (length capacity : Nat) : Nat :=
  if capacity - 1 ≤ length then capacity * 2 else capacity

/-- The loop of `read_csv_line` on the pair (`length`, `capacity`) alone:
the pair after each iteration, in order.  The branches are those of
`read_csv_line_loop`; every `line[length++] = ...` adds one to `length`. -/
def read_csv_line_sizes (inq : Bool) (q : Char) (length capacity : Nat) :
    List Char → List (Nat × Nat)
  | [] => []
  | c :: rest =>
    if inq = false ∧ (c = DQ ∨ c = SQ) then
      (length + 1, grow length capacity)
        :: read_csv_line_sizes true c (length + 1) (grow length capacity) rest
    else if inq = true ∧ c = q then
      match rest with
      | [] => [(length + 1, grow length capacity)]
      | next_c :: rest2 =>
        if next_c = q then
          (length + 2, grow length capacity)
            :: read_csv_line_sizes inq q (length + 2) (grow length capacity) rest2
        else
          (length + 1, grow length capacity)
            :: read_csv_line_sizes false q (length + 1) (grow length capacity) (next_c :: rest2)
    else if inq = false ∧ (c = '\n' ∨ c = '\r') then
      [(length, grow length capacity)]
    else
      (length + 1, grow length capacity)
        :: read_csv_line_sizes inq q (length + 1) (grow length capacity) rest

/-- The pair (`length`, `capacity`) when the loop is left: the last pair of
the run, or the initial pair when the loop body never ran. -/
def final_sizes (length capacity : Nat) : List (Nat × Nat) → Nat × Nat
  | [] => (length, capacity)
  | s :: rest => final_sizes s.1 s.2 rest

/-- An input of 256 bytes: a double quote, 253 letters, and a doubled double
quote followed by the end of the file. -/
def doubled_quote_at_254 : List Char :=
  DQ :: (List.replicate 253 'a' ++ [DQ, DQ])


/-! ## The line reconstructor -/

theorem cstr_eq_self (s : List Char) (h : NUL ∉ s) : cstr s = s := by
  induction s with
  | nil => rfl
  | cons c s ih =>
    have hc : c ≠ NUL := fun e => h (by simp [e])
    have hs : NUL ∉ s := fun m => h (List.mem_cons_of_mem _ m)
    simp [cstr, hc, ih hs]

/-- One iteration of the reading loop on a character that is not the active
closing quote: the case analysis of lines 24-50 without the look-ahead. -/
theorem read_loop_step (inq : Bool) (q c : Char) (line rest : List Char)
    (h : ¬ (inq = true ∧ c = q)) (hq : ¬ (inq = false ∧ (c = DQ ∨ c = SQ)))
    (hn : ¬ (inq = false ∧ (c = '\n' ∨ c = '\r'))) :
    read_csv_line_loop inq q line (c :: rest)
      = read_csv_line_loop inq q (line ++ [c]) rest := by
  rw [read_csv_line_loop.eq_def]
  simp only [h, hq, hn, if_false]

/-- Outside quotes, plain characters are appended to the buffer one by one. -/
theorem read_loop_plain (q : Char) (s tail : List Char) (hs : ∀ c ∈ s, Plain c) :
    ∀ line, read_csv_line_loop false q line (s ++ tail)
      = read_csv_line_loop false q (line ++ s) tail := by
  induction s with
  | nil => intro line; simp
  | cons c s ih =>
    intro line
    obtain ⟨h1, h2, h3, h4⟩ := hs c (by simp)
    have hs2 : ∀ d ∈ s, Plain d := fun d hd => hs d (List.mem_cons_of_mem _ hd)
    rw [List.cons_append, read_loop_step _ _ _ _ _ (by simp) (by simp [h1, h2]) (by simp [h3, h4]),
      ih hs2]
    simp

/-- Inside quotes, a doubled body followed by the closing quote is appended
whole, and the reader is outside quotes again in front of `tail`, provided
`tail` does not start with the same quote character. -/
theorem read_loop_quoted (q : Char) (s tail : List Char) (ht : tail.head? ≠ some q) :
    ∀ line, read_csv_line_loop true q line (double_quotes q s ++ q :: tail)
      = read_csv_line_loop false q (line ++ double_quotes q s ++ [q]) tail := by
  induction s with
  | nil =>
    intro line
    cases tail with
    | nil => simp [double_quotes, read_csv_line_loop]
    | cons d tail =>
      have hd : d ≠ q := fun e => ht (by simp [e])
      simp [double_quotes, read_csv_line_loop, hd]
  | cons c s ih =>
    intro line
    by_cases hc : c = q
    · subst hc
      simp only [double_quotes, if_true, List.cons_append]
      rw [read_csv_line_loop]
      simp only [Bool.true_eq_false, false_and, if_false, and_self, if_true]
      rw [ih]
      simp
    · simp only [double_quotes, hc, if_false, List.cons_append]
      rw [read_loop_step _ _ _ _ _ (by simp [hc]) (by simp) (by simp), ih]
      simp

/-- Outside quotes a quote character opens a quoted region and is kept. -/
theorem read_loop_open (q0 q : Char) (hq : IsQuote q) (line rest : List Char) :
    read_csv_line_loop false q0 line (q :: rest)
      = read_csv_line_loop true q (line ++ [q]) rest := by
  have hq2 : q = DQ ∨ q = SQ := hq
  rw [read_csv_line_loop.eq_def]
  simp only [hq2, and_self, if_true]

theorem lf_not_quote : ¬ ('\n' = DQ ∨ '\n' = SQ) := by decide

theorem cr_not_quote : ¬ ('\r' = DQ ∨ '\r' = SQ) := by decide

/-- Outside quotes a line feed ends the line and is dropped. -/
theorem read_loop_lf (q : Char) (line rest : List Char) :
    read_csv_line_loop false q line ('\n' :: rest) = (line, rest, false) := by
  rw [read_csv_line_loop.eq_def]
  simp [lf_not_quote]

/-- Outside quotes a carriage return followed by a line feed ends the line
and both are dropped. -/
theorem read_loop_crlf (q : Char) (line rest : List Char) :
    read_csv_line_loop false q line ('\r' :: '\n' :: rest) = (line, rest, false) := by
  rw [read_csv_line_loop.eq_def]
  simp [cr_not_quote]

/-- Outside quotes a lone carriage return ends the line; the character peeked
after it is pushed back. -/
theorem read_loop_cr (q : Char) (line rest : List Char) (h : rest.head? ≠ some '\n') :
    read_csv_line_loop false q line ('\r' :: rest) = (line, rest, false) := by
  rw [read_csv_line_loop.eq_def]
  cases rest with
  | nil => simp [cr_not_quote]
  | cons d rest =>
    have hd : d ≠ '\n' := fun e => h (by simp [e])
    simp [hd, cr_not_quote]

theorem isQuote_ne_nul (q : Char) (hq : IsQuote q) : q ≠ NUL := by
  rcases hq with h | h <;> subst h <;> decide

theorem nul_not_mem_double_quotes (q : Char) (hq : q ≠ NUL) (s : List Char) (hs : NUL ∉ s) :
    NUL ∉ double_quotes q s := by
  induction s with
  | nil => simp [double_quotes]
  | cons c s ih =>
    have hc : NUL ≠ c := fun e => hs (by simp [e])
    have hs2 : NUL ∉ s := fun m => hs (List.mem_cons_of_mem _ m)
    by_cases h : c = q
    · simp [double_quotes, h, Ne.symm hq, ih hs2]
    · simp [double_quotes, h, hc, ih hs2]

theorem nul_not_mem_quote_field (q : Char) (hq : IsQuote q) (s : List Char) (hs : NUL ∉ s) :
    NUL ∉ quote_field q s := by
  have h1 := isQuote_ne_nul q hq
  have h2 := nul_not_mem_double_quotes q h1 s hs
  simp [quote_field, Ne.symm h1, h2]

/-- What `read_csv_line` returns when the loop leaves through `break`. -/
theorem read_csv_line_of_break (file line rest : List Char)
    (h : read_csv_line_loop false NUL [] file = (line, rest, false)) :
    read_csv_line file = (some (cstr line), rest) := by
  simp [read_csv_line, h]

/-- What `read_csv_line` returns when the loop ends at end of input with a
non-empty buffer. -/
theorem read_csv_line_of_eof (file line rest : List Char) (hl : line ≠ [])
    (h : read_csv_line_loop false NUL [] file = (line, rest, true)) :
    read_csv_line file = (some (cstr line), rest) := by
  simp [read_csv_line, h, hl]

/-! ## The field splitter -/

theorem skip_ws_eq_dropWhile (s : List Char) : skip_ws s = s.dropWhile is_blank := by
  induction s with
  | nil => rfl
  | cons c s ih =>
    by_cases h : c = ' ' ∨ c = '\t'
    · have hb : is_blank c = true := by simpa [is_blank] using h
      simp [skip_ws, h, List.dropWhile_cons, hb, ih]
    · have hb : is_blank c = false := by simpa [is_blank] using h
      simp [skip_ws, h, List.dropWhile_cons, hb]

/-- The trimming done by the code is the specification's trimming. -/
theorem trim_field_eq_trimmed (f : List Char) : trim_field f = trimmed f := by
  simp [trim_field, trimmed, List.rdropWhile, skip_ws_eq_dropWhile]

/-- One iteration of the field loop on a character that is neither the
delimiter outside quotes nor the active closing quote. -/
theorem parse_field_step (inq : Bool) (q c : Char) (field rest : List Char)
    (h : ¬ (inq = true ∧ c = q)) (hc : ¬ (inq = false ∧ c = ',')) :
    parse_field_loop inq q field (c :: rest)
      = parse_field_loop inq q (field ++ [c]) rest := by
  rw [parse_field_loop.eq_def]
  simp only [h, hc, if_false]

/-- Inside quotes, a doubled body followed by the closing quote yields the
body itself, and the splitter is outside quotes in front of `tail`. -/
theorem parse_field_quoted (q : Char) (s tail : List Char) (ht : tail.head? ≠ some q) :
    ∀ field, parse_field_loop true q field (double_quotes q s ++ q :: tail)
      = parse_field_loop false q (field ++ s) tail := by
  induction s with
  | nil =>
    intro field
    cases tail with
    | nil => simp [double_quotes, parse_field_loop]
    | cons d tail =>
      have hd : d ≠ q := fun e => ht (by simp [e])
      simp [double_quotes, parse_field_loop, hd]
  | cons c s ih =>
    intro field
    by_cases hc : c = q
    · subst hc
      simp only [double_quotes, if_true, List.cons_append]
      rw [parse_field_loop]
      simp only [Bool.true_eq_false, false_and, if_false, and_self, if_true]
      rw [ih]
      simp
    · simp only [double_quotes, hc, if_false, List.cons_append]
      rw [parse_field_step _ _ _ _ _ (by simp [hc]) (by simp), ih]
      simp

theorem isQuote_not_blank (q : Char) (hq : IsQuote q) : ¬ (q = ' ' ∨ q = '\t') := by
  rcases hq with h | h <;> subst h <;> decide

theorem isQuote_ne_comma (q : Char) (hq : IsQuote q) : q ≠ ',' := by
  rcases hq with h | h <;> subst h <;> decide

/-- One pass of the outer loop on a written field that ends the line. -/
theorem parse_one_field_quoted_last (q : Char) (f : List Char) (hq : IsQuote q) :
    parse_one_field (quote_field q f) = (trim_field f, []) := by
  have hq2 : q = DQ ∨ q = SQ := hq
  have h := parse_field_quoted q f [] (by simp) []
  simp only [List.nil_append] at h
  simp [parse_one_field, quote_field, skip_ws, isQuote_not_blank q hq, open_quote, hq2, h,
    parse_field_loop, skip_comma]

/-- One pass of the outer loop on a written field followed by a comma. -/
theorem parse_one_field_quoted_comma (q : Char) (f rest : List Char) (hq : IsQuote q) :
    parse_one_field (quote_field q f ++ ',' :: rest) = (trim_field f, rest) := by
  have hq2 : q = DQ ∨ q = SQ := hq
  have hne : (',' :: rest).head? ≠ some q := by
    simpa using (isQuote_ne_comma q hq).symm
  have h := parse_field_quoted q f (',' :: rest) hne []
  have h2 : parse_field_loop false q f (',' :: rest) = (f, ',' :: rest) := by
    rw [parse_field_loop.eq_def]; simp
  simp only [List.nil_append] at h
  simp [parse_one_field, quote_field, skip_ws, isQuote_not_blank q hq, open_quote, hq2, h, h2,
    skip_comma]

/-- The field loop never moves `ptr` backwards. -/
theorem parse_field_loop_length (inq : Bool) (q : Char) (field p : List Char) :
    (parse_field_loop inq q field p).2.length ≤ p.length := by
  induction inq, q, field, p using parse_field_loop.induct with
  | case1 inq q field => simp [parse_field_loop]
  | case2 inq q field c rest h => rw [parse_field_loop.eq_def]; simp [h]
  | case3 inq q field c h1 h2 => rw [parse_field_loop.eq_def]; simp [h1, h2]
  | case4 inq field c h1 d rest h2 ih =>
    obtain ⟨rfl, rfl⟩ := h2
    rw [parse_field_loop.eq_def]; simp only [h1, if_false, if_true, and_self]
    simp at ih ⊢; omega
  | case5 inq q field c h1 h2 d rest h3 ih =>
    rw [parse_field_loop.eq_def]; simp only [h1, h2, h3, if_false, if_true, and_self]
    simp at ih ⊢; omega
  | case6 inq q field c rest h1 h2 ih =>
    rw [parse_field_loop.eq_def]; simp only [h1, h2, if_false]
    simp at ih ⊢; omega

theorem skip_ws_length (p : List Char) : (skip_ws p).length ≤ p.length := by
  induction p with
  | nil => simp [skip_ws]
  | cons c rest ih =>
    by_cases h : c = ' ' ∨ c = '\t'
    · simp only [skip_ws, h, if_true, List.length_cons]; omega
    · simp [skip_ws, h]

theorem skip_comma_length (p : List Char) : (skip_comma p).length ≤ p.length := by
  cases p with
  | nil => simp [skip_comma]
  | cons c rest =>
    by_cases h : c = ','
    · simp [skip_comma, h]
    · simp [skip_comma, h]

/-- Every pass of the outer loop of `parse_csv_line` moves `ptr` forward by
at least one character. -/
theorem parse_one_field_length (c : Char) (rest : List Char) :
    (parse_one_field (c :: rest)).2.length < (c :: rest).length := by
  have key : ∀ inq q p, (skip_comma (parse_field_loop inq q [] p).2).length ≤ p.length :=
    fun inq q p => le_trans (skip_comma_length _) (parse_field_loop_length inq q [] p)
  by_cases hb : c = ' ' ∨ c = '\t'
  · have h1 : skip_ws (c :: rest) = skip_ws rest := by simp [skip_ws, hb]
    have h2 := skip_ws_length rest
    simp only [parse_one_field, h1, List.length_cons]
    cases hs : skip_ws rest with
    | nil => simp [open_quote, parse_field_loop, skip_comma]
    | cons d r =>
      rw [hs] at h2
      simp only [List.length_cons] at h2
      by_cases hd : d = DQ ∨ d = SQ
      · simp only [open_quote, hd, if_true]
        have := key true d r
        omega
      · simp only [open_quote, hd, if_false]
        have := key false NUL (d :: r)
        simp only [List.length_cons] at this
        omega
  · have h1 : skip_ws (c :: rest) = c :: rest := by simp [skip_ws, hb]
    simp only [parse_one_field, h1, List.length_cons]
    by_cases hd : c = DQ ∨ c = SQ
    · simp only [open_quote, hd, if_true]
      have := key true c rest
      omega
    · simp only [open_quote, hd, if_false]
      by_cases hc : c = ','
      · have h3 : parse_field_loop false NUL [] (c :: rest) = ([], c :: rest) := by
          rw [parse_field_loop.eq_def]; simp [hc]
        rw [h3]
        simp [skip_comma, hc]
      · rw [parse_field_step false NUL c [] rest (by simp) (by simp [hc])]
        have := le_trans (skip_comma_length _) (parse_field_loop_length false NUL ([] ++ [c]) rest)
        omega

theorem parse_csv_line_loop_nil (fuel : Nat) : parse_csv_line_loop fuel [] = some [] := by
  cases fuel <;> rfl

/-- Fuel above the length of the line does not change the result of the
outer loop. -/
theorem parse_csv_line_loop_fuel (fuel1 : Nat) :
    ∀ (fuel2 : Nat) (ptr : List Char), ptr.length ≤ fuel1 → ptr.length ≤ fuel2 →
      parse_csv_line_loop fuel1 ptr = parse_csv_line_loop fuel2 ptr := by
  induction fuel1 with
  | zero =>
    intro fuel2 ptr h1 _
    have : ptr = [] := List.length_eq_zero.mp (Nat.le_zero.mp h1)
    subst this
    simp [parse_csv_line_loop_nil]
  | succ n ih =>
    intro fuel2 ptr h1 h2
    cases ptr with
    | nil => simp [parse_csv_line_loop_nil]
    | cons c rest =>
      cases fuel2 with
      | zero => simp at h2
      | succ m =>
        have hl := parse_one_field_length c rest
        simp only [List.length_cons] at h1 h2 hl
        simp only [parse_csv_line_loop]
        rw [ih m _ (by omega) (by omega)]

/-- The unfolding of `parse_csv_line` on a non-empty line: one pass of the
outer loop, then the fields of what is left. -/
theorem parse_csv_line_cons (c : Char) (rest : List Char) :
    parse_csv_line (c :: rest)
      = match parse_csv_line (parse_one_field (c :: rest)).2 with
        | none => none
        | some fields => some ((parse_one_field (c :: rest)).1 :: fields) := by
  have hl := parse_one_field_length c rest
  simp only [List.length_cons] at hl
  simp only [parse_csv_line, List.length_cons, parse_csv_line_loop]
  rw [parse_csv_line_loop_fuel rest.length _ _ (by omega) (le_refl _)]

theorem parse_csv_line_nil : parse_csv_line [] = some [] := rfl

/-- The outer loop of `parse_csv_line` ends on every line: the fuel given
by `parse_csv_line` is enough. -/
theorem parse_csv_line_total (line : List Char) : ∃ fields, parse_csv_line line = some fields := by
  have main : ∀ n (l : List Char), l.length ≤ n → ∃ fields, parse_csv_line l = some fields := by
    intro n
    induction n with
    | zero =>
      intro l hl
      have : l = [] := List.length_eq_zero.mp (Nat.le_zero.mp hl)
      exact ⟨[], by rw [this]; rfl⟩
    | succ n ih =>
      intro l hl
      cases l with
      | nil => exact ⟨[], rfl⟩
      | cons c rest =>
        have h2 := parse_one_field_length c rest
        simp only [List.length_cons] at hl h2
        obtain ⟨fs, hfs⟩ := ih (parse_one_field (c :: rest)).2 (by omega)
        exact ⟨_ :: fs, by rw [parse_csv_line_cons, hfs]⟩
  exact main line.length line (le_refl _)

theorem parse_csv_line_of_ne_nil (line : List Char) (h : line ≠ []) :
    parse_csv_line line
      = match parse_csv_line (parse_one_field line).2 with
        | none => none
        | some fields => some ((parse_one_field line).1 :: fields) := by
  cases line with
  | nil => exact absurd rfl h
  | cons c rest => exact parse_csv_line_cons c rest

theorem quote_field_ne_nil (q : Char) (f : List Char) : quote_field q f ≠ [] := by
  simp [quote_field]

/-- The field splitter applied to a written record gives back the fields,
trimmed by the code's own trimming. -/
theorem parse_csv_line_encode_record (r : List (Char × List Char))
    (hq : ∀ p ∈ r, IsQuote p.1) :
    parse_csv_line (encode_record r) = some (r.map (fun p => trim_field p.2)) := by
  induction r with
  | nil => rfl
  | cons p ps ih =>
    have hp : IsQuote p.1 := hq p (by simp)
    cases ps with
    | nil =>
      have e : encode_record [p] = quote_field p.1 p.2 := rfl
      rw [e, parse_csv_line_of_ne_nil _ (quote_field_ne_nil _ _),
        parse_one_field_quoted_last _ _ hp]
      simp [parse_csv_line_nil]
    | cons p2 ps2 =>
      have e : encode_record (p :: p2 :: ps2)
          = quote_field p.1 p.2 ++ ',' :: encode_record (p2 :: ps2) := rfl
      have ih2 := ih (fun x hx => hq x (List.mem_cons_of_mem _ hx))
      rw [e, parse_csv_line_of_ne_nil _ (by simp [quote_field_ne_nil]),
        parse_one_field_quoted_comma _ _ _ hp]
      simp only [ih2]
      simp

/-! ## The renderer -/

theorem keys_of_append (a b : List Tok) : keys_of (a ++ b) = keys_of a ++ keys_of b := by
  induction a with
  | nil => rfl
  | cons t a ih => cases t <;> simp [keys_of, ih]

theorem keys_of_if_styled (styled : Bool) (s : List Char) : keys_of (if_styled styled s) = [] := by
  cases styled <;> rfl

theorem keys_of_member (csv : CSVData) (styled : Bool) (row : List (List Char)) (j : Nat) :
    keys_of (print_json_member csv styled row j) = [csv.headers.getD j []] := by
  simp only [print_json_member, keys_of_append, keys_of_if_styled]
  split <;> split <;> split <;> simp [keys_of]

theorem keys_of_members (csv : CSVData) (styled : Bool) (row : List (List Char)) (n : Nat) :
    ∀ j, j + n = csv.headers.length →
      keys_of (print_json_members csv styled row n j) = csv.headers.drop j := by
  induction n with
  | zero =>
    intro j hj
    simp only [Nat.add_zero] at hj
    simp [print_json_members, keys_of, hj]
  | succ n ih =>
    intro j hj
    have hlt : j < csv.headers.length := by omega
    rw [print_json_members, keys_of_append, keys_of_member, ih (j + 1) (by omega),
      List.getD_eq_getElem _ _ hlt, List.drop_eq_getElem_cons hlt]
    rfl

theorem unescape_escape_char (c : Char) (t : List Char) (ih : unescape (escape_loop t) = t) :
    unescape (escape_char c ++ escape_loop t) = c :: t := by
  unfold escape_char
  by_cases h1 : c = DQ
  · subst h1; simp [unescape, ih]
  by_cases h2 : c = BSL
  · subst h2; simp [unescape, ih]; decide
  by_cases h3 : c = '\n'
  · subst h3
    have a1 : ¬ ('\n' = DQ) := by decide
    have a2 : ¬ ('\n' = BSL) := by decide
    have a3 : ¬ ('n' = DQ) := by decide
    have a4 : ¬ ('n' = BSL) := by decide
    simp [unescape, ih, a1, a2, a3, a4]
  by_cases h4 : c = '\r'
  · subst h4
    have a1 : ¬ ('\r' = DQ) := by decide
    have a2 : ¬ ('\r' = BSL) := by decide
    have a3 : ¬ ('r' = DQ) := by decide
    have a4 : ¬ ('r' = BSL) := by decide
    simp [unescape, ih, a1, a2, a3, a4]
  by_cases h5 : c = '\t'
  · subst h5
    have a1 : ¬ ('\t' = DQ) := by decide
    have a2 : ¬ ('\t' = BSL) := by decide
    have a3 : ¬ ('t' = DQ) := by decide
    have a4 : ¬ ('t' = BSL) := by decide
    simp [unescape, ih, a1, a2, a3, a4]
  simp only [h1, h2, h3, h4, h5, if_false, List.singleton_append]
  cases he : escape_loop t with
  | nil =>
    rw [he] at ih
    simp [unescape, ← ih]
  | cons d r =>
    rw [he] at ih
    simp [unescape, h2, ih]

/-- Reading an escaped string back gives the string. -/
theorem unescape_escape_loop (v : List Char) : unescape (escape_loop v) = v := by
  induction v with
  | nil => rfl
  | cons c t ih => exact unescape_escape_char c t ih

/-! ## The numeric classifier -/

/-- What the loop of `is_numeric` accepts: digits and dots only, with at
most one dot counting the one already seen. -/
theorem is_numeric_loop_iff (body : List Char) :
    ∀ has_dot : Bool, is_numeric_loop has_dot body = true ↔
      (∀ c ∈ body, isdigit c = true ∨ c = '.') ∧
        body.count '.' + (if has_dot = true then 1 else 0) ≤ 1 := by
  induction body with
  | nil => intro has_dot; cases has_dot <;> simp [is_numeric_loop]
  | cons c rest ih =>
    intro has_dot
    by_cases hc : c = '.'
    · subst hc
      cases has_dot
      · simp [is_numeric_loop, ih true]
      · simp [is_numeric_loop]
    · have hc2 : ¬ ('.' = c) := fun e => hc e.symm
      by_cases hd : isdigit c = true
      · simp [is_numeric_loop, hc, hd, ih has_dot, List.count_cons, hc2]
      · have hd2 : isdigit c = false := by simpa using hd
        simp [is_numeric_loop, hc, hd2]

theorem sign_not_body (c : Char) (hs : c = '-' ∨ c = '+') : ¬ (isdigit c = true ∨ c = '.') := by
  rcases hs with h | h <;> subst h <;> decide

/-- What `is_numeric` accepts: the strings of the numeric pattern, and also
a sign alone. -/
theorem is_numeric_iff (s : List Char) :
    is_numeric s = true ↔ NumericPattern s ∨ s = ['-'] ∨ s = ['+'] := by
  cases s with
  | nil =>
    simp only [is_numeric, Bool.false_eq_true, false_iff]
    rintro (⟨sign, body, h1, _, h3, _⟩ | h | h)
    · have : body = [] := by
        have := congrArg List.length h1
        simp at this
        exact List.length_eq_zero.mp (by omega)
      exact h3 this
    · cases h
    · cases h
  | cons c rest =>
    by_cases hs : c = '-' ∨ c = '+'
    · simp only [is_numeric, hs, if_true, is_numeric_loop_iff, Bool.false_eq_true, if_false,
        Nat.add_zero]
      constructor
      · intro ⟨h1, h2⟩
        by_cases hr : rest = []
        · subst hr
          rcases hs with h | h <;> simp [h]
        · left
          refine ⟨[c], rest, rfl, ?_, hr, h1, h2⟩
          rcases hs with h | h <;> simp [h]
      · rintro (⟨sign, body, h1, h2, h3, h4, h5⟩ | h | h)
        · rcases h2 with h2 | h2 | h2
          · subst h2
            simp only [List.nil_append] at h1
            exact absurd (h4 c (by rw [← h1]; simp)) (sign_not_body c hs)
          · subst h2
            simp only [List.singleton_append, List.cons.injEq] at h1
            rw [h1.2]; exact ⟨h4, h5⟩
          · subst h2
            simp only [List.singleton_append, List.cons.injEq] at h1
            rw [h1.2]; exact ⟨h4, h5⟩
        · simp only [List.cons.injEq] at h
          rw [h.2]; simp
        · simp only [List.cons.injEq] at h
          rw [h.2]; simp
    · simp only [is_numeric, hs, if_false, is_numeric_loop_iff, Bool.false_eq_true,
        Nat.add_zero]
      constructor
      · intro ⟨h1, h2⟩
        left
        exact ⟨[], c :: rest, rfl, Or.inl rfl, by simp, h1, h2⟩
      · rintro (⟨sign, body, h1, h2, h3, h4, h5⟩ | h | h)
        · rcases h2 with h2 | h2 | h2
          · subst h2
            simp only [List.nil_append] at h1
            rw [h1]; exact ⟨h4, h5⟩
          · subst h2
            simp only [List.singleton_append, List.cons.injEq] at h1
            exact absurd (Or.inr h1.1) hs
          · subst h2
            simp only [List.singleton_append, List.cons.injEq] at h1
            exact absurd (Or.inl h1.1) hs
        · simp only [List.cons.injEq] at h
          exact absurd (Or.inl h.1) hs
        · simp only [List.cons.injEq] at h
          exact absurd (Or.inr h.1) hs

/-! ## Table construction -/

theorem read_csv_line_nil : read_csv_line [] = (none, []) := rfl

/-- A plain line followed by a line feed is returned whole. -/
theorem read_csv_line_plain_lf (s rest : List Char) (hs : ∀ c ∈ s, Plain c) (hn : NUL ∉ s) :
    read_csv_line (s ++ '\n' :: rest) = (some s, rest) := by
  have h := read_loop_plain NUL s ('\n' :: rest) hs []
  rw [read_loop_lf, List.nil_append] at h
  rw [read_csv_line_of_break _ _ _ h, cstr_eq_self _ hn]

/-- A plain line followed by CR LF is returned whole. -/
theorem read_csv_line_plain_crlf (s rest : List Char) (hs : ∀ c ∈ s, Plain c) (hn : NUL ∉ s) :
    read_csv_line (s ++ '\r' :: '\n' :: rest) = (some s, rest) := by
  have h := read_loop_plain NUL s ('\r' :: '\n' :: rest) hs []
  rw [read_loop_crlf, List.nil_append] at h
  rw [read_csv_line_of_break _ _ _ h, cstr_eq_self _ hn]

/-- A plain line followed by a lone carriage return is returned whole. -/
theorem read_csv_line_plain_cr (s rest : List Char) (hs : ∀ c ∈ s, Plain c) (hn : NUL ∉ s)
    (hr : rest.head? ≠ some '\n') :
    read_csv_line (s ++ '\r' :: rest) = (some s, rest) := by
  have h := read_loop_plain NUL s ('\r' :: rest) hs []
  rw [read_loop_cr _ _ _ hr, List.nil_append] at h
  rw [read_csv_line_of_break _ _ _ h, cstr_eq_self _ hn]

/-- A non-empty plain line followed by the end of input is returned whole. -/
theorem read_csv_line_plain_eof (s : List Char) (hs : ∀ c ∈ s, Plain c) (hn : NUL ∉ s)
    (hne : s ≠ []) : read_csv_line s = (some s, []) := by
  have h := read_loop_plain NUL s [] hs []
  rw [List.append_nil, List.nil_append] at h
  have h2 : read_csv_line_loop false NUL s [] = (s, [], true) := by
    rw [read_csv_line_loop.eq_def]
  rw [h2] at h
  rw [read_csv_line_of_eof _ _ _ hne h, cstr_eq_self _ hn]

theorem comma_plain : Plain ',' := by decide

/-- The reading loop on a written record followed by `tail`, when the loop
outside quotes ends at the head of `tail` leaving `rest`. -/
theorem read_loop_record (tail rest : List Char)
    (htail : ∀ q line, read_csv_line_loop false q line tail = (line, rest, false))
    (hhead : ∀ q, IsQuote q → tail.head? ≠ some q) (r : List (Char × List Char)) :
    r ≠ [] → (∀ p ∈ r, IsQuote p.1) →
    ∀ q0 line, read_csv_line_loop false q0 line (encode_record r ++ tail)
      = (line ++ encode_record r, rest, false) := by
  induction r with
  | nil => intro h; exact absurd rfl h
  | cons p ps ih =>
    intro _ hq q0 line
    have hp : IsQuote p.1 := hq p (by simp)
    cases ps with
    | nil =>
      have e : encode_record [p] = [p.1] ++ double_quotes p.1 p.2 ++ [p.1] := rfl
      rw [e]
      simp only [List.append_assoc, List.singleton_append, List.cons_append, List.nil_append]
      rw [read_loop_open q0 p.1 hp, read_loop_quoted p.1 p.2 _ (hhead p.1 hp), htail]
      simp
    | cons p2 ps2 =>
      have e : encode_record (p :: p2 :: ps2)
          = [p.1] ++ double_quotes p.1 p.2 ++ [p.1] ++ ',' :: encode_record (p2 :: ps2) := rfl
      have hne : (',' :: (encode_record (p2 :: ps2) ++ tail)).head? ≠ some p.1 := by
        simpa using (isQuote_ne_comma p.1 hp).symm
      have hc := comma_plain
      rw [e]
      simp only [List.append_assoc, List.singleton_append, List.cons_append, List.nil_append]
      rw [read_loop_open q0 p.1 hp, read_loop_quoted p.1 p.2 _ hne,
        read_loop_step false p.1 ',' _ _ (by simp) (by simp [hc.1, hc.2.1])
          (by simp [hc.2.2.1, hc.2.2.2]),
        ih (by simp) (fun x hx => hq x (List.mem_cons_of_mem _ hx))]
      simp

theorem comma_ne_nul : NUL ≠ ',' := by decide

theorem nul_not_mem_encode_record (r : List (Char × List Char))
    (hq : ∀ p ∈ r, IsQuote p.1) (hn : ∀ p ∈ r, NUL ∉ p.2) : NUL ∉ encode_record r := by
  induction r with
  | nil => simp [encode_record, join_commas]
  | cons p ps ih =>
    have h1 := nul_not_mem_quote_field p.1 (hq p (by simp)) p.2 (hn p (by simp))
    cases ps with
    | nil => exact h1
    | cons p2 ps2 =>
      have e : encode_record (p :: p2 :: ps2)
          = quote_field p.1 p.2 ++ ',' :: encode_record (p2 :: ps2) := rfl
      have h2 := ih (fun x hx => hq x (List.mem_cons_of_mem _ hx))
        (fun x hx => hn x (List.mem_cons_of_mem _ hx))
      rw [e]
      simp [h1, h2, comma_ne_nul]

theorem encode_record_ne_nil (r : List (Char × List Char)) (hr : r ≠ []) :
    encode_record r ≠ [] := by
  cases r with
  | nil => exact absurd rfl hr
  | cons p ps =>
    cases ps with
    | nil => exact quote_field_ne_nil _ _
    | cons p2 ps2 =>
      have e : encode_record (p :: p2 :: ps2)
          = quote_field p.1 p.2 ++ ',' :: encode_record (p2 :: ps2) := rfl
      rw [e]; simp

/-- A written record followed by its terminator is read as one logical line,
the written record itself, and the input after the terminator is left. -/
theorem read_csv_line_record (r : List (Char × List Char)) (t rest : List Char)
    (hr : r ≠ []) (hq : ∀ p ∈ r, IsQuote p.1) (hn : ∀ p ∈ r, NUL ∉ p.2)
    (ht : IsTerminator t) :
    read_csv_line (encode_record r ++ t ++ rest) = (some (encode_record r), rest) := by
  have hloop : read_csv_line_loop false NUL [] (encode_record r ++ (t ++ rest))
      = ([] ++ encode_record r, rest, false) := by
    rcases ht with h | h
    · subst h
      refine read_loop_record _ rest (fun q line => read_loop_lf q line rest) ?_ r hr hq NUL []
      intro q hq2
      rcases hq2 with h | h <;> subst h <;> simp <;> decide
    · subst h
      refine read_loop_record _ rest (fun q line => read_loop_crlf q line rest) ?_ r hr hq NUL []
      intro q hq2
      rcases hq2 with h | h <;> subst h <;> simp <;> decide
  rw [List.nil_append] at hloop
  rw [List.append_assoc, read_csv_line_of_break _ _ _ hloop,
    cstr_eq_self _ (nul_not_mem_encode_record r hq hn)]

theorem dropWhile_eq_self_of_head (l : List Char)
    (h : l.head?.map is_blank ≠ some true) : l.dropWhile is_blank = l := by
  cases l with
  | nil => rfl
  | cons c l =>
    have hc : is_blank c = false := by simpa using h
    simp [List.dropWhile_cons, hc]

/-- A field with no blank at either end is left unchanged by the trimming. -/
theorem trimmed_eq_self (f : List Char) (h : NoEdgeBlank f) : trimmed f = f := by
  have h2 : f.reverse.head?.map is_blank ≠ some true := by
    rw [List.head?_reverse]; exact h.2
  rw [trimmed, dropWhile_eq_self_of_head f h.1, List.rdropWhile,
    dropWhile_eq_self_of_head _ h2, List.reverse_reverse]

/-- The row loop at the end of input. -/
theorem read_csv_rows_nil (fuel : Nat) (data : List (List (List Char))) :
    read_csv_rows (fuel + 1) [] data = some data := rfl

/-- One iteration of the row loop on a zero-length line. -/
theorem read_csv_rows_blank (fuel : Nat) (file rest : List Char)
    (data : List (List (List Char))) (h : read_csv_line file = (some [], rest)) :
    read_csv_rows (fuel + 1) file data = read_csv_rows fuel rest data := by
  simp [read_csv_rows, h]

/-- One iteration of the row loop on a non-empty line. -/
theorem read_csv_rows_row (fuel : Nat) (file line rest : List Char)
    (data : List (List (List Char))) (fields : List (List Char))
    (h : read_csv_line file = (some line, rest)) (hl : line ≠ [])
    (hp : parse_csv_line line = some fields) :
    read_csv_rows (fuel + 1) file data = read_csv_rows fuel rest (data ++ [fields]) := by
  simp [read_csv_rows, h, hl, hp]

theorem parse_csv_line_well_written (r : List (Char × List Char) × List Char)
    (h : WellWritten r) :
    parse_csv_line (encode_record r.1) = some (r.1.map (fun p => p.2)) := by
  rw [parse_csv_line_encode_record r.1 (fun p hp => (h.2.1 p hp).1)]
  congr 1
  apply List.map_congr_left
  intro p hp
  rw [trim_field_eq_trimmed, trimmed_eq_self _ (h.2.1 p hp).2.2]

theorem read_csv_line_well_written (r : List (Char × List Char) × List Char)
    (rest : List Char) (h : WellWritten r) :
    read_csv_line (encode_record r.1 ++ r.2 ++ rest) = (some (encode_record r.1), rest) :=
  read_csv_line_record r.1 r.2 rest h.1 (fun p hp => (h.2.1 p hp).1)
    (fun p hp => (h.2.1 p hp).2.1) h.2.2

/-- The row loop on a written table stores the fields of every record. -/
theorem read_csv_rows_encode_table (rs : List (List (Char × List Char) × List Char)) :
    (∀ r ∈ rs, WellWritten r) →
    ∀ (fuel : Nat) (data : List (List (List Char))), (encode_table rs).length < fuel →
      read_csv_rows fuel (encode_table rs) data = some (data ++ rows_of rs) := by
  induction rs with
  | nil =>
    intro _ fuel data hf
    cases fuel with
    | zero => simp at hf
    | succ f => simp [encode_table, read_csv_rows_nil, rows_of]
  | cons r rs ih =>
    intro hw fuel data hf
    have hr : WellWritten r := hw r (by simp)
    cases fuel with
    | zero => simp at hf
    | succ f =>
      have e : encode_table (r :: rs) = encode_record r.1 ++ r.2 ++ encode_table rs := rfl
      rw [e] at hf ⊢
      rw [read_csv_rows_row f _ _ _ data _ (read_csv_line_well_written r _ hr)
        (encode_record_ne_nil _ hr.1) (parse_csv_line_well_written r hr),
        ih (fun x hx => hw x (List.mem_cons_of_mem _ hx)) f _
          (by
            have := List.length_pos.mpr (encode_record_ne_nil _ hr.1)
            simp only [List.length_append] at hf; omega)]
      simp [rows_of]

/-- The table read from a written table. -/
theorem read_csv_encode_table (hdr : List (Char × List Char) × List Char)
    (rows : List (List (Char × List Char) × List Char))
    (hh : WellWritten hdr) (hr : ∀ r ∈ rows, WellWritten r) :
    read_csv (encode_table (hdr :: rows))
      = some ⟨hdr.1.map (fun p => p.2), rows_of rows⟩ := by
  have e : encode_table (hdr :: rows) = encode_record hdr.1 ++ hdr.2 ++ encode_table rows := rfl
  rw [e]
  simp only [read_csv, read_csv_line_well_written hdr _ hh, parse_csv_line_well_written hdr hh,
    read_csv_rows_encode_table rows hr _ [] (Nat.lt_succ_self _), List.nil_append]

theorem text_of_lines_single (l : List Char) (final : Bool) :
    text_of_lines [l] final = l ++ (if final = true then ['\n'] else []) := rfl

theorem text_of_lines_cons (l m : List Char) (ls : List (List Char)) (final : Bool) :
    text_of_lines (l :: m :: ls) final = l ++ '\n' :: text_of_lines (m :: ls) final := by
  simp [text_of_lines, join_lines]

/-- One iteration of the row loop on a plain physical line: a zero-length
line is skipped, any other line is split and stored. -/
theorem read_csv_rows_plain (fuel : Nat) (file l rest : List Char)
    (data : List (List (List Char))) (h : read_csv_line file = (some l, rest)) :
    ∃ row, row.map some = ([l].filter (fun x => decide (x ≠ []))).map parse_csv_line ∧
      read_csv_rows (fuel + 1) file data = read_csv_rows fuel rest (data ++ row) := by
  by_cases hl : l = []
  · subst hl
    exact ⟨[], by simp, by rw [read_csv_rows_blank fuel _ _ _ h]; simp⟩
  · obtain ⟨fs, hfs⟩ := parse_csv_line_total l
    exact ⟨[fs], by simp [hl, hfs], read_csv_rows_row fuel _ _ _ _ _ h hl hfs⟩

/-- The row loop on plain physical lines stores the fields of exactly the
lines that are not zero-length, in order. -/
theorem read_csv_rows_lines (final : Bool) (ls : List (List Char)) :
    ls ≠ [] → (∀ l ∈ ls, (∀ c ∈ l, Plain c) ∧ NUL ∉ l) →
    ∀ (fuel : Nat) (data : List (List (List Char))),
      (text_of_lines ls final).length < fuel →
      ∃ rows, rows.map some = (ls.filter (fun x => decide (x ≠ []))).map parse_csv_line ∧
        read_csv_rows fuel (text_of_lines ls final) data = some (data ++ rows) := by
  induction ls with
  | nil => intro h; exact absurd rfl h
  | cons l ms ih =>
    intro _ hv fuel data hf
    obtain ⟨hp, hn⟩ := hv l (by simp)
    cases fuel with
    | zero => simp at hf
    | succ f =>
      cases ms with
      | nil =>
        rw [text_of_lines_single] at hf ⊢
        cases final with
        | true =>
          simp only [if_true, List.length_append, List.length_singleton] at hf
          obtain ⟨row, h1, h2⟩ := read_csv_rows_plain f _ l [] data
            (read_csv_line_plain_lf l [] hp hn)
          cases f with
          | zero => omega
          | succ f2 => exact ⟨row, h1, by simp only [if_true]; rw [h2, read_csv_rows_nil]⟩
        | false =>
          simp only [Bool.false_eq_true, if_false, List.append_nil] at hf ⊢
          by_cases hl : l = []
          · subst hl
            exact ⟨[], by simp, by simp [read_csv_rows_nil]⟩
          · obtain ⟨row, h1, h2⟩ := read_csv_rows_plain f _ l [] data
              (read_csv_line_plain_eof l hp hn hl)
            have := List.length_pos.mpr hl
            cases f with
            | zero => omega
            | succ f2 => exact ⟨row, h1, by rw [h2, read_csv_rows_nil]⟩
      | cons m ms2 =>
        rw [text_of_lines_cons] at hf ⊢
        obtain ⟨row, h1, h2⟩ := read_csv_rows_plain f _ l (text_of_lines (m :: ms2) final) data
          (read_csv_line_plain_lf l _ hp hn)
        obtain ⟨rows, h3, h4⟩ := ih (by simp) (fun x hx => hv x (List.mem_cons_of_mem _ hx))
          f (data ++ row) (by simp only [List.length_append, List.length_cons] at hf; omega)
        refine ⟨row ++ rows, ?_, by rw [h2, h4, List.append_assoc]⟩
        rw [List.map_append, h1, h3, ← List.map_append, ← List.filter_append]
        rfl

theorem count_objects_append (a b : List Tok) :
    count_objects (a ++ b) = count_objects a + count_objects b := by
  simp [count_objects, List.count_append]

theorem count_objects_if_styled (styled : Bool) (s : List Char) (h : s ≠ ['\x7b']) :
    count_objects (if_styled styled s) = 0 := by
  cases styled
  · rfl
  · simp [if_styled, count_objects, List.count_singleton, h]

theorem count_objects_member (csv : CSVData) (styled : Bool) (row : List (List Char)) (j : Nat) :
    count_objects (print_json_member csv styled row j) = 0 := by
  simp only [print_json_member, count_objects_append,
    count_objects_if_styled styled _ (by decide : [' ', ' ', ' ', ' '] ≠ ['\x7b']),
    count_objects_if_styled styled _ (by decide : ['\n'] ≠ ['\x7b'])]
  split <;> split <;> split <;> simp [count_objects, List.count_cons]

theorem count_objects_members (csv : CSVData) (styled : Bool) (row : List (List Char)) (n : Nat) :
    ∀ j, count_objects (print_json_members csv styled row n j) = 0 := by
  induction n with
  | zero => intro j; rfl
  | succ n ih =>
    intro j
    rw [print_json_members, count_objects_append, count_objects_member, ih]

theorem count_objects_object (csv : CSVData) (styled : Bool) (i : Nat) :
    count_objects (print_json_object csv styled i) = 1 := by
  simp only [print_json_object, count_objects_append, count_objects_members,
    count_objects_if_styled styled _ (by decide : [' ', ' '] ≠ ['\x7b']),
    count_objects_if_styled styled _ (by decide : ['\n'] ≠ ['\x7b'])]
  split <;> simp [count_objects, List.count_cons]

theorem count_objects_objects (csv : CSVData) (styled : Bool) (n : Nat) :
    ∀ i, count_objects (print_json_objects csv styled n i) = n := by
  induction n with
  | zero => intro i; rfl
  | succ n ih =>
    intro i
    rw [print_json_objects, count_objects_append, count_objects_object, ih]
    omega

/-- The renderer opens one object per stored row. -/
theorem count_objects_print_json (csv : CSVData) (styled : Bool) :
    count_objects (print_json_calls csv styled) = csv.data.length := by
  simp only [print_json_calls, count_objects_append, count_objects_objects,
    count_objects_if_styled styled _ (by decide : ['\n'] ≠ ['\x7b'])]
  simp [count_objects, List.count_cons]

/-- The table read from plain physical lines: the header is the first line
split, the rows are the later lines that are not zero-length, split. -/
theorem read_csv_text_of_lines (l0 : List Char) (ls : List (List Char)) (final : Bool)
    (hv : ∀ l ∈ l0 :: ls, (∀ c ∈ l, Plain c) ∧ NUL ∉ l) :
    ∃ csv, read_csv (text_of_lines (l0 :: ls) final) = some csv ∧
      some csv.headers = parse_csv_line l0 ∧
      csv.data.map some = (ls.filter (fun x => decide (x ≠ []))).map parse_csv_line := by
  obtain ⟨hp, hn⟩ := hv l0 (by simp)
  obtain ⟨hs, hhs⟩ := parse_csv_line_total l0
  have hrows : ∀ rest : List Char, ∀ rows : List (List (List Char)),
      read_csv_line (text_of_lines (l0 :: ls) final) = (some l0, rest) →
      read_csv_rows (rest.length + 1) rest [] = some rows →
      read_csv (text_of_lines (l0 :: ls) final) = some ⟨hs, rows⟩ := by
    intro rest rows h1 h2
    simp only [read_csv, h1, hhs, h2]
  cases ls with
  | nil =>
    rw [text_of_lines_single] at hrows ⊢
    cases final with
    | true =>
      exact ⟨⟨hs, []⟩, hrows [] [] (read_csv_line_plain_lf l0 [] hp hn) rfl, hhs.symm, rfl⟩
    | false =>
      simp only [Bool.false_eq_true, if_false, List.append_nil] at hrows ⊢
      by_cases hl : l0 = []
      · subst hl
        exact ⟨⟨[], []⟩, rfl, rfl, rfl⟩
      · exact ⟨⟨hs, []⟩, hrows [] [] (read_csv_line_plain_eof l0 hp hn hl) rfl, hhs.symm, rfl⟩
  | cons m ms =>
    rw [text_of_lines_cons] at hrows ⊢
    obtain ⟨rows, h3, h4⟩ := read_csv_rows_lines final (m :: ms) (by simp)
      (fun x hx => hv x (List.mem_cons_of_mem _ hx)) _ [] (Nat.lt_succ_self _)
    rw [List.nil_append] at h4
    exact ⟨⟨hs, rows⟩, hrows _ rows (read_csv_line_plain_lf l0 _ hp hn) h4, hhs.symm, h3⟩

theorem keys_of_object (csv : CSVData) (styled : Bool) (i : Nat) :
    keys_of (print_json_object csv styled i) = csv.headers := by
  simp only [print_json_object, keys_of_append, keys_of_if_styled,
    keys_of_members csv styled _ csv.headers.length 0 (Nat.zero_add _)]
  split <;> simp [keys_of]

theorem keys_of_objects (csv : CSVData) (styled : Bool) (n : Nat) :
    ∀ i, keys_of (print_json_objects csv styled n i)
      = (List.replicate n csv.headers).flatten := by
  induction n with
  | zero => intro i; rfl
  | succ n ih =>
    intro i
    rw [print_json_objects, keys_of_append, keys_of_object, ih, List.replicate_succ,
      List.flatten_cons]

theorem escape_loop_eq_flatten (v : List Char) :
    escape_loop v = (v.map escape_char).flatten := by
  induction v with
  | nil => rfl
  | cons c t ih => simp [escape_loop, ih]

theorem not_numericPattern_sign (c : Char) (hs : c = '-' ∨ c = '+') : ¬ NumericPattern [c] := by
  rintro ⟨sign, body, h1, h2, h3, h4, _⟩
  rcases h2 with h2 | h2 | h2
  · subst h2
    simp only [List.nil_append] at h1
    exact absurd (h4 c (by rw [← h1]; simp)) (sign_not_body c hs)
  · subst h2
    simp only [List.singleton_append, List.cons.injEq] at h1
    exact h3 h1.2.symm
  · subst h2
    simp only [List.singleton_append, List.cons.injEq] at h1
    exact h3 h1.2.symm

/-! ## Mismatched field counts -/

theorem values_of_append (a b : List Tok) : values_of (a ++ b) = values_of a ++ values_of b := by
  induction a with
  | nil => rfl
  | cons t a ih => cases t <;> simp [values_of, ih]

theorem values_of_if_styled (styled : Bool) (s : List Char) :
    values_of (if_styled styled s) = [] := by
  cases styled <;> rfl

/-- The value call of the member at an index below the header count. -/
theorem values_of_member (csv : CSVData) (styled : Bool) (row : List (List Char)) (j : Nat)
    (hj : j < csv.headers.length) :
    values_of (print_json_member csv styled row j) = [value_at row j] := by
  simp only [print_json_member, values_of_append, values_of_if_styled, value_at]
  by_cases h1 : row.length < csv.headers.length
  · by_cases h2 : j < row.length
    · simp only [h1, h2, if_true]
      split <;> simp [values_of]
    · simp only [h1, h2, if_true, if_false]
      split <;> simp [values_of]
  · have h2 : j < row.length := by omega
    simp only [h1, h2, hj, if_true, if_false]
    split <;> simp [values_of]

theorem values_of_members (csv : CSVData) (styled : Bool) (row : List (List Char)) (n : Nat) :
    ∀ j, j + n = csv.headers.length →
      values_of (print_json_members csv styled row n j)
        = (List.range' j n).map (value_at row) := by
  induction n with
  | zero => intro j _; rfl
  | succ n ih =>
    intro j hj
    rw [print_json_members, values_of_append, values_of_member csv styled row j (by omega),
      ih (j + 1) (by omega)]
    rfl

/-- The member printed at an index below the header count only looks at the
field of that index, if the row has one. -/
theorem print_json_member_congr (csv : CSVData) (styled : Bool) (row row2 : List (List Char))
    (j : Nat) (hj : j < csv.headers.length) (hv : value_at row2 j = value_at row j) :
    print_json_member csv styled row2 j = print_json_member csv styled row j := by
  have key : ∀ r : List (List Char),
      (if j < (if r.length < csv.headers.length then r.length else csv.headers.length)
        then Tok.value (print_json_value (r.getD j [])) else Tok.value [DQ, DQ])
      = Tok.value (value_at r j) := by
    intro r
    unfold value_at
    by_cases h1 : r.length < csv.headers.length
    · by_cases h2 : j < r.length <;> simp [h1, h2]
    · have h2 : j < r.length := by omega
      simp [h1, h2, hj]
  simp only [print_json_member, key, hv]

theorem print_json_members_congr (csv : CSVData) (styled : Bool) (row row2 : List (List Char))
    (hv : ∀ j, j < csv.headers.length → value_at row2 j = value_at row j) (n : Nat) :
    ∀ j, j + n = csv.headers.length →
      print_json_members csv styled row2 n j = print_json_members csv styled row n j := by
  induction n with
  | zero => intro j _; rfl
  | succ n ih =>
    intro j hj
    rw [print_json_members, print_json_members,
      print_json_member_congr csv styled row row2 j (by omega) (hv j (by omega)),
      ih (j + 1) (by omega)]

theorem value_at_pad_row (h : Nat) (row : List (List Char)) (j : Nat) (hj : j < h) :
    value_at (pad_row h row) j = value_at row j := by
  unfold value_at pad_row
  have hl : j < (row ++ List.replicate (h - row.length) []).length := by
    simp only [List.length_append, List.length_replicate]; omega
  by_cases h2 : j < row.length
  · simp only [hl, h2, if_true, List.getD_eq_getElem?_getD]
    rw [List.getElem?_append_left h2]
  · simp only [hl, h2, if_true, if_false, List.getD_eq_getElem?_getD]
    rw [List.getElem?_append_right (by omega)]
    have h3 : j - row.length < h - row.length := by omega
    simp [List.getElem?_replicate, h3, print_json_value]

theorem value_at_take (h : Nat) (row : List (List Char)) (j : Nat) (hj : j < h) :
    value_at (row.take h) j = value_at row j := by
  unfold value_at
  by_cases h2 : j < row.length
  · have hl : j < (row.take h).length := by simp [List.length_take]; omega
    simp only [hl, h2, if_true, List.getD_eq_getElem?_getD]
    rw [List.getElem?_take_of_lt hj]
  · have hl : ¬ j < (row.take h).length := by simp [List.length_take]; omega
    simp only [hl, h2, if_false]


theorem print_json_members_headers (hs : List (List Char)) (d1 d2 : List (List (List Char)))
    (styled : Bool) (row : List (List Char)) (n : Nat) :
    ∀ j, print_json_members ⟨hs, d1⟩ styled row n j = print_json_members ⟨hs, d2⟩ styled row n j := by
  induction n with
  | zero => intro j; rfl
  | succ n ih =>
    intro j
    rw [print_json_members, print_json_members, ih (j + 1)]
    rfl

/-- Replacing every row by one with the same values at the header indices
does not change the calls of `print_json`. -/
theorem print_json_calls_map (hs : List (List Char)) (data : List (List (List Char)))
    (styled : Bool) (f : List (List Char) → List (List Char))
    (hf : ∀ row j, j < hs.length → value_at (f row) j = value_at row j) :
    print_json_calls ⟨hs, data.map f⟩ styled = print_json_calls ⟨hs, data⟩ styled := by
  have hobj : ∀ i, print_json_object ⟨hs, data.map f⟩ styled i
      = print_json_object ⟨hs, data⟩ styled i := by
    intro i
    have hrow : print_json_members ⟨hs, data.map f⟩ styled ((data.map f).getD i []) hs.length 0
        = print_json_members ⟨hs, data⟩ styled (data.getD i []) hs.length 0 := by
      rw [print_json_members_headers hs (data.map f) data]
      by_cases hi : i < data.length
      · have e : (data.map f).getD i [] = f (data.getD i []) := by
          simp [List.getD_eq_getElem?_getD, List.getElem?_map, List.getElem?_eq_getElem hi]
        rw [e]
        exact print_json_members_congr ⟨hs, data⟩ styled _ _ (fun j hj => hf _ j hj) _ 0
          (Nat.zero_add _)
      · have e1 : (data.map f).getD i [] = [] := by
          simp [List.getD_eq_getElem?_getD, List.getElem?_eq_none (Nat.le_of_not_lt hi)]
        have e2 : data.getD i [] = [] := by
          simp [List.getD_eq_getElem?_getD, List.getElem?_eq_none (Nat.le_of_not_lt hi)]
        rw [e1, e2]
    simp only [print_json_object, List.length_map] at hrow ⊢
    rw [hrow]
  have hobjs : ∀ n i, print_json_objects ⟨hs, data.map f⟩ styled n i
      = print_json_objects ⟨hs, data⟩ styled n i := by
    intro n
    induction n with
    | zero => intro i; rfl
    | succ n ih => intro i; rw [print_json_objects, print_json_objects, hobj, ih]
  simp only [print_json_calls, List.length_map, hobjs]


/-! ## Layout -/

theorem render_append (a b : List Tok) : render (a ++ b) = render a ++ render b := by
  induction a with
  | nil => rfl
  | cons t a ih => simp [render, ih]

theorem render_if_styled (styled : Bool) (s : List Char) :
    render (if_styled styled s) = if styled = true then s else [] := by
  cases styled <;> simp [if_styled, render, Tok.text]

/-- The text of one member call sequence at an index below the header count. -/
theorem render_member (csv : CSVData) (styled : Bool) (row : List (List Char)) (j : Nat)
    (hj : j < csv.headers.length) :
    render (print_json_member csv styled row j)
      = (if styled = true then [' ', ' ', ' ', ' '] else []) ++
        member_text row j (csv.headers.getD j []) ++
        (if j + 1 < csv.headers.length then [','] else []) ++
        (if styled = true then ['\n'] else []) := by
  have key : (if j < (if row.length < csv.headers.length then row.length else csv.headers.length)
        then Tok.value (print_json_value (row.getD j [])) else Tok.value [DQ, DQ])
      = Tok.value (value_at row j) := by
    unfold value_at
    by_cases h1 : row.length < csv.headers.length
    · by_cases h2 : j < row.length <;> simp [h1, h2]
    · have h2 : j < row.length := by omega
      simp [h1, h2, hj]
  simp only [print_json_member, key, render_append, render_if_styled, member_text]
  by_cases h : j + 1 < csv.headers.length <;> simp [h, render, Tok.text]

/-- The text of the header loop: one piece per header, in order, each with
its index. -/
theorem render_members (csv : CSVData) (styled : Bool) (row : List (List Char)) (n : Nat) :
    ∀ j, j + n = csv.headers.length →
      render (print_json_members csv styled row n j)
        = (((csv.headers.drop j).enumFrom j).map (fun m =>
            (if styled = true then [' ', ' ', ' ', ' '] else []) ++
            member_text row m.1 m.2 ++
            (if m.1 + 1 < csv.headers.length then [','] else []) ++
            (if styled = true then ['\n'] else []))).flatten := by
  induction n with
  | zero =>
    intro j hj
    simp only [Nat.add_zero] at hj
    simp [print_json_members, render, hj]
  | succ n ih =>
    intro j hj
    have hlt : j < csv.headers.length := by omega
    rw [print_json_members, render_append, render_member csv styled row j hlt,
      ih (j + 1) (by omega), List.drop_eq_getElem_cons hlt, List.enumFrom_cons, List.map_cons,
      List.flatten_cons, List.getD_eq_getElem _ _ hlt]

/-- Pieces each followed by a separator unless last, concatenated, are the
pieces joined by the separator. -/
theorem flatten_sep_unless_last {α : Type} (sep : List Char) (f : Nat → α → List Char)
    (xs : List α) :
    ∀ k n, k + xs.length = n →
      ((xs.enumFrom k).map (fun m => f m.1 m.2 ++ (if m.1 + 1 < n then sep else []))).flatten
        = sep.intercalate ((xs.enumFrom k).map (fun m => f m.1 m.2)) := by
  induction xs with
  | nil => intro k n _; simp [List.intercalate]
  | cons x xs ih =>
    intro k n hk
    simp only [List.length_cons] at hk
    have h := ih (k + 1) n (by omega)
    cases xs with
    | nil =>
      simp only [List.length_nil] at hk
      have : ¬ (k + 1 < n) := by omega
      simp [List.enumFrom_cons, List.intercalate, this]
    | cons y ys =>
      simp only [List.length_cons] at hk
      have hlt : k + 1 < n := by omega
      rw [List.enumFrom_cons, List.map_cons, List.flatten_cons, h]
      simp [List.enumFrom_cons, List.intercalate, hlt]


/-- The text of the calls of one pass of the row loop, for a row index below
the row count. -/
theorem render_object (csv : CSVData) (styled : Bool) (i : Nat) (hi : i < csv.data.length) :
    render (print_json_object csv styled i)
      = (if styled = true then [' ', ' '] else []) ++ ['\x7b'] ++
        (if styled = true then ['\n'] else []) ++
        ((csv.headers.enum.map (fun m =>
            (if styled = true then [' ', ' ', ' ', ' '] else []) ++
            member_text (csv.data.get ⟨i, hi⟩) m.1 m.2 ++
            (if m.1 + 1 < csv.headers.length then [','] else []) ++
            (if styled = true then ['\n'] else []))).flatten) ++
        (if styled = true then [' ', ' '] else []) ++ ['\x7d'] ++
        (if i + 1 < csv.data.length then [','] else []) ++
        (if styled = true then ['\n'] else []) := by
  have hrow : csv.data.getD i [] = csv.data.get ⟨i, hi⟩ := by
    rw [List.getD_eq_getElem _ _ hi]; rfl
  simp only [print_json_object, render_append, render_if_styled,
    render_members csv styled _ _ 0 (Nat.zero_add _), hrow, List.drop_zero, List.enum]
  by_cases h : i + 1 < csv.data.length <;> simp [h, render, Tok.text]

/-- The text of the row loop: one piece per row, in order, each with its
index. -/
theorem render_objects (csv : CSVData) (styled : Bool) (n : Nat) :
    ∀ i, i + n = csv.data.length →
      render (print_json_objects csv styled n i)
        = (((csv.data.drop i).enumFrom i).map (fun r =>
            (if styled = true then [' ', ' '] else []) ++ ['\x7b'] ++
            (if styled = true then ['\n'] else []) ++
            ((csv.headers.enum.map (fun m =>
                (if styled = true then [' ', ' ', ' ', ' '] else []) ++
                member_text r.2 m.1 m.2 ++
                (if m.1 + 1 < csv.headers.length then [','] else []) ++
                (if styled = true then ['\n'] else []))).flatten) ++
            (if styled = true then [' ', ' '] else []) ++ ['\x7d'] ++
            (if r.1 + 1 < csv.data.length then [','] else []) ++
            (if styled = true then ['\n'] else []))).flatten := by
  induction n with
  | zero =>
    intro i hi
    simp only [Nat.add_zero] at hi
    simp [print_json_objects, render, hi]
  | succ n ih =>
    intro i hi
    have hlt : i < csv.data.length := by omega
    rw [print_json_objects, render_append, render_object csv styled i hlt,
      ih (i + 1) (by omega), List.drop_eq_getElem_cons hlt, List.enumFrom_cons, List.map_cons,
      List.flatten_cons]
    rfl

theorem map_snd_enumFrom (g : List (List Char) → List Char) (xs : List (List (List Char))) :
    ∀ k, (xs.enumFrom k).map (fun r => g r.2) = xs.map g := by
  induction xs with
  | nil => intro k; rfl
  | cons x xs ih => intro k; simp [List.enumFrom_cons, ih]

/-- The styled text of `print_json` is the styled layout. -/
theorem print_json_styled_eq (csv : CSVData) : print_json csv true = styled_layout csv := by
  simp only [print_json, print_json_calls, render_append, render_if_styled,
    render_objects csv true _ 0 (Nat.zero_add _), styled_layout, List.drop_zero, List.enum]
  simp [render, Tok.text]

/-- The compact text of `print_json` is the compact layout. -/
theorem print_json_compact_eq (csv : CSVData) : print_json csv false = compact_layout csv := by
  have hinner : ∀ row : List (List Char),
      ((csv.headers.enum.map (fun m =>
          ([] : List Char) ++ member_text row m.1 m.2 ++
          (if m.1 + 1 < csv.headers.length then [','] else []) ++ [])).flatten)
      = [','].intercalate (csv.headers.enum.map (fun m => member_text row m.1 m.2)) := by
    intro row
    have h := flatten_sep_unless_last [','] (member_text row) csv.headers 0 csv.headers.length
      (Nat.zero_add _)
    simpa [List.enum] using h
  have houter := flatten_sep_unless_last [',']
    (fun _ row => ['\x7b'] ++
      [','].intercalate (csv.headers.enum.map (fun m => member_text row m.1 m.2)) ++ ['\x7d'])
    csv.data 0 csv.data.length (Nat.zero_add _)
  simp only [map_snd_enumFrom (fun row => ['\x7b'] ++
      [','].intercalate (csv.headers.enum.map (fun m => member_text row m.1 m.2)) ++ ['\x7d'])]
    at houter
  simp only [print_json, print_json_calls, render_append, render_if_styled,
    render_objects csv false _ 0 (Nat.zero_add _), compact_layout, List.drop_zero,
    Bool.false_eq_true, if_false, hinner, ← houter]
  simp [render, Tok.text]


theorem framed_compact (m : List Char) :
    ∃ body, ((['['] ++ m ++ [']']) ++ ['\n'], 0).1 = ['['] ++ body ++ [']', '\n'] :=
  ⟨m, by simp⟩

theorem framed_styled (m : List Char) :
    ∃ body, (['[', '\n'] ++ m ++ [']', '\n'], 0).1 = ['['] ++ body ++ [']', '\n'] :=
  ⟨'\n' :: m, by simp⟩


/-! ## Whitespace of the compact mode -/

theorem compactPunct_member (csv : CSVData) (row : List (List Char)) (j : Nat) :
    ∀ t ∈ print_json_member csv false row j, CompactPunct t := by
  intro t ht
  simp only [print_json_member, if_styled, Bool.false_eq_true, if_false, List.nil_append,
    List.append_nil, List.mem_append, List.mem_singleton] at ht
  intro s hs
  rcases ht with (ht | ht) | ht
  · rw [ht] at hs; cases hs
  · split at ht <;> split at ht <;> (rw [ht] at hs; cases hs)
  · split at ht
    · simp only [List.mem_singleton] at ht
      rw [ht] at hs
      cases hs
      simp
    · cases ht

theorem compactPunct_members (csv : CSVData) (row : List (List Char)) (n : Nat) :
    ∀ j, ∀ t ∈ print_json_members csv false row n j, CompactPunct t := by
  induction n with
  | zero => intro j t ht; cases ht
  | succ n ih =>
    intro j t ht
    rw [print_json_members, List.mem_append] at ht
    rcases ht with ht | ht
    · exact compactPunct_member csv row j t ht
    · exact ih (j + 1) t ht

theorem compactPunct_object (csv : CSVData) (i : Nat) :
    ∀ t ∈ print_json_object csv false i, CompactPunct t := by
  intro t ht
  simp only [print_json_object, if_styled, Bool.false_eq_true, if_false, List.nil_append,
    List.append_nil, List.mem_append, List.mem_singleton] at ht
  rcases ht with ((ht | ht) | ht) | ht
  · intro s hs; rw [ht] at hs; cases hs; simp
  · exact compactPunct_members csv _ _ 0 t ht
  · intro s hs; rw [ht] at hs; cases hs; simp
  · split at ht
    · simp only [List.mem_singleton] at ht
      intro s hs; rw [ht] at hs; cases hs; simp
    · cases ht

theorem compactPunct_objects (csv : CSVData) (n : Nat) :
    ∀ i, ∀ t ∈ print_json_objects csv false n i, CompactPunct t := by
  induction n with
  | zero => intro i t ht; cases ht
  | succ n ih =>
    intro i t ht
    rw [print_json_objects, List.mem_append] at ht
    rcases ht with ht | ht
    · exact compactPunct_object csv i t ht
    · exact ih (i + 1) t ht

/-- In compact mode every punctuation call prints one of the five
structural characters. -/
theorem compactPunct_calls (csv : CSVData) :
    ∀ t ∈ print_json_calls csv false, CompactPunct t := by
  intro t ht
  simp only [print_json_calls, if_styled, Bool.false_eq_true, if_false, List.nil_append,
    List.append_nil, List.mem_append, List.mem_singleton] at ht
  rcases ht with (ht | ht) | ht
  · intro s hs; rw [ht] at hs; cases hs; simp
  · exact compactPunct_objects csv _ 0 t ht
  · intro s hs; rw [ht] at hs; cases hs; simp


/-! ## Splitting without quotes -/

/-- Outside quotes the field loop takes the characters up to the next comma. -/
theorem parse_field_loop_unquoted (q : Char) (p : List Char) :
    ∀ acc, parse_field_loop false q acc p
      = (acc ++ p.takeWhile (fun c => c != ','), p.dropWhile (fun c => c != ',')) := by
  induction p with
  | nil => intro acc; simp [parse_field_loop]
  | cons c rest ih =>
    intro acc
    by_cases hc : c = ','
    · subst hc
      rw [parse_field_loop.eq_def]
      simp
    · rw [parse_field_step false q c acc rest (by simp) (by simp [hc]), ih]
      simp [List.takeWhile_cons, List.dropWhile_cons, hc]

theorem blank_ne_comma (c : Char) (h : c = ' ' ∨ c = '\t') : c ≠ ',' := by
  rcases h with h | h <;> subst h <;> decide

theorem skip_ws_skip_ws (p : List Char) : skip_ws (skip_ws p) = skip_ws p := by
  induction p with
  | nil => rfl
  | cons c rest ih =>
    by_cases h : c = ' ' ∨ c = '\t'
    · simp only [skip_ws, h, if_true, ih]
    · simp [skip_ws, h]

theorem takeWhile_skip_ws (p : List Char) :
    (skip_ws p).takeWhile (fun c => c != ',') = skip_ws (p.takeWhile (fun c => c != ',')) := by
  induction p with
  | nil => rfl
  | cons c rest ih =>
    by_cases h : c = ' ' ∨ c = '\t'
    · have hc := blank_ne_comma c h
      simp [skip_ws, h, List.takeWhile_cons, hc, ih]
    · by_cases hc : c = ','
      · simp [skip_ws, h, List.takeWhile_cons, hc]
      · simp [skip_ws, h, List.takeWhile_cons, hc]

theorem dropWhile_skip_ws (p : List Char) :
    (skip_ws p).dropWhile (fun c => c != ',') = p.dropWhile (fun c => c != ',') := by
  induction p with
  | nil => rfl
  | cons c rest ih =>
    by_cases h : c = ' ' ∨ c = '\t'
    · have hc := blank_ne_comma c h
      simp [skip_ws, h, List.dropWhile_cons, hc, ih]
    · simp [skip_ws, h]

theorem skip_ws_subset (p : List Char) : ∀ c ∈ skip_ws p, c ∈ p := by
  induction p with
  | nil => intro c hc; exact hc
  | cons d rest ih =>
    intro c hc
    by_cases h : d = ' ' ∨ d = '\t'
    · simp only [skip_ws, h, if_true] at hc
      exact List.mem_cons_of_mem _ (ih c hc)
    · simpa [skip_ws, h] using hc

theorem trim_field_skip_ws (f : List Char) : trim_field (skip_ws f) = trim_field f := by
  simp [trim_field, skip_ws_skip_ws]

/-- One pass of the outer loop on a line without quote characters: the
field is the trimmed text before the first comma, and `ptr` moves past that
comma. -/
theorem parse_one_field_unquoted (p : List Char) (hd : DQ ∉ p) (hs : SQ ∉ p) :
    parse_one_field p
      = (trim_field (p.takeWhile (fun c => c != ',')),
         skip_comma (p.dropWhile (fun c => c != ','))) := by
  have hopen : open_quote (skip_ws p) = (false, NUL, skip_ws p) := by
    cases hsk : skip_ws p with
    | nil => rfl
    | cons c r =>
      have hc : c ∈ p := skip_ws_subset p c (by rw [hsk]; simp)
      have h1 : c ≠ DQ := fun e => hd (e ▸ hc)
      have h2 : c ≠ SQ := fun e => hs (e ▸ hc)
      simp [open_quote, h1, h2]
  simp only [parse_one_field, hopen, parse_field_loop_unquoted, List.nil_append,
    takeWhile_skip_ws, dropWhile_skip_ws, trim_field_skip_ws]


theorem not_comma_of_mem_takeWhile (p : List Char) :
    ∀ x ∈ p.takeWhile (fun c => c != ','), ¬ ((x == ',') = true) := by
  intro x hx
  have := List.mem_takeWhile_imp hx
  simpa using this

theorem dropWhile_comma_cases (p : List Char) :
    p.dropWhile (fun c => c != ',') = [] ∨
    ∃ rest, p.dropWhile (fun c => c != ',') = ',' :: rest := by
  induction p with
  | nil => left; rfl
  | cons c r ih =>
    by_cases hc : c = ','
    · right; exact ⟨r, by simp [List.dropWhile_cons, hc]⟩
    · simpa [List.dropWhile_cons, hc] using ih

theorem getLast?_append_cons_ne_nil (xs rest : List Char) (c : Char) (h : rest ≠ []) :
    (xs ++ c :: rest).getLast? = rest.getLast? := by
  cases rest with
  | nil => exact absurd rfl h
  | cons d r =>
    rw [show xs ++ c :: d :: r = (xs ++ [c]) ++ d :: r by simp]
    simp [List.getLast?_append, List.getLast?_eq_getLast _ (List.cons_ne_nil d r)]

/-- The fields of a non-empty line without quote characters. -/
theorem parse_csv_line_unquoted_aux (n : Nat) :
    ∀ p : List Char, p.length ≤ n → p ≠ [] → DQ ∉ p → SQ ∉ p →
      parse_csv_line p = some (unquoted_fields p) := by
  induction n with
  | zero =>
    intro p hl hne
    exact absurd (List.length_eq_zero.mp (Nat.le_zero.mp hl)) hne
  | succ n ih =>
    intro p hl hne hd hs
    have hsplit := List.takeWhile_append_dropWhile (fun c => c != ',') p
    have hxs := not_comma_of_mem_takeWhile p
    rw [parse_csv_line_of_ne_nil p hne, parse_one_field_unquoted p hd hs]
    rcases dropWhile_comma_cases p with htl | ⟨rest, htl⟩
    · rw [htl, List.append_nil] at hsplit
      rw [hsplit] at hxs
      have hsp : p.splitOn ',' = [p] := List.splitOnP_eq_single _ _ hxs
      have hlast : p.getLast? ≠ some ',' := by
        intro e
        have hm : ',' ∈ p := List.mem_of_getLast?_eq_some e
        exact hxs ',' hm (by simp)
      simp [htl, skip_comma, parse_csv_line_nil, hsplit, unquoted_fields, hsp, hlast,
        trim_field_eq_trimmed]
    · rw [htl] at hsplit
      have hsp : p.splitOn ',' = p.takeWhile (fun c => c != ',') :: rest.splitOn ',' := by
        have := List.splitOnP_first (fun c => c == ',') _ hxs ',' (by simp) rest
        rw [hsplit] at this
        exact this
      have hlen : rest.length < p.length := by
        have := congrArg List.length hsplit
        simp only [List.length_append, List.length_cons] at this
        omega
      by_cases hr : rest = []
      · subst hr
        have hlast : p.getLast? = some ',' := by
          rw [← hsplit]; simp
        simp [htl, skip_comma, parse_csv_line_nil, unquoted_fields, hsp, hlast,
          trim_field_eq_trimmed]
      · have hmem : ∀ c ∈ rest, c ∈ p := by
          intro c hc
          rw [← hsplit]
          simp [hc]
        have hih := ih rest (by omega) hr (fun h => hd (hmem _ h)) (fun h => hs (hmem _ h))
        have hlast : p.getLast? = rest.getLast? := by
          rw [← hsplit]
          exact getLast?_append_cons_ne_nil _ rest ',' hr
        have hne2 : rest.splitOn ',' ≠ [] := List.splitOnP_ne_nil _ _
        have hdl : (p.takeWhile (fun c => c != ',') :: rest.splitOn ',').dropLast
            = p.takeWhile (fun c => c != ',') :: (rest.splitOn ',').dropLast := by
          cases hh : rest.splitOn ',' with
          | nil => exact absurd hh hne2
          | cons a l => rfl
        simp only [htl, skip_comma, if_true, hih]
        simp only [unquoted_fields, hsp, hlast, hdl, trim_field_eq_trimmed]
        split <;> simp

theorem trimmed_all_blank (line : List Char) (h : ∀ c ∈ line, is_blank c = true) :
    trimmed line = [] := by
  have : line.dropWhile is_blank = [] := by
    rw [List.dropWhile_eq_nil_iff]; exact h
  simp [trimmed, this, List.rdropWhile]


/-! ## Quoted fields in general -/

/-- Inside quotes, a doubled body that runs to the end of the line yields
the body: the quote is never closed. -/
theorem parse_field_unterminated (q : Char) (s : List Char) :
    ∀ field, parse_field_loop true q field (double_quotes q s) = (field ++ s, []) := by
  induction s with
  | nil => intro field; simp [double_quotes, parse_field_loop]
  | cons c s ih =>
    intro field
    by_cases hc : c = q
    · subst hc
      simp only [double_quotes, if_true]
      rw [parse_field_loop]
      simp only [Bool.true_eq_false, false_and, if_false, and_self, if_true]
      rw [ih]
      simp
    · simp only [double_quotes, hc, if_false]
      rw [parse_field_step _ _ _ _ _ (by simp [hc]) (by simp), ih]
      simp

/-- Every text after an opening quote `q` is a doubled body that runs to the
end, or a doubled body, a closing `q` and a tail that does not start with
`q`. -/
theorem quoted_region_cases (q : Char) (n : Nat) :
    ∀ rest : List Char, rest.length ≤ n →
      (∃ s, rest = double_quotes q s) ∨
      (∃ s tail, rest = double_quotes q s ++ q :: tail ∧ tail.head? ≠ some q) := by
  induction n using Nat.strong_induction_on with
  | _ n ih =>
    intro rest hl
    cases rest with
    | nil => exact Or.inl ⟨[], rfl⟩
    | cons c r =>
      simp only [List.length_cons] at hl
      by_cases hc : c = q
      · subst hc
        cases r with
        | nil => exact Or.inr ⟨[], [], rfl, by simp⟩
        | cons d r2 =>
          simp only [List.length_cons] at hl
          by_cases hd : d = c
          · subst hd
            rcases ih r2.length (by omega) r2 (le_refl _) with ⟨s, hs⟩ | ⟨s, tail, hs, ht⟩
            · exact Or.inl ⟨d :: s, by simp [double_quotes, hs]⟩
            · exact Or.inr ⟨d :: s, tail, by simp [double_quotes, hs], ht⟩
          · exact Or.inr ⟨[], d :: r2, rfl, by simpa using hd⟩
      · rcases ih r.length (by omega) r (le_refl _) with ⟨s, hs⟩ | ⟨s, tail, hs, ht⟩
        · exact Or.inl ⟨c :: s, by simp [double_quotes, hc, hs]⟩
        · exact Or.inr ⟨c :: s, tail, by simp [double_quotes, hc, hs], ht⟩

/-- One pass of the outer loop on a field that opens with a quote whose
region runs to the end of the line. -/
theorem parse_one_field_unterminated (p : List Char) (q : Char) (s : List Char)
    (hq : IsQuote q) (hp : skip_ws p = q :: double_quotes q s) :
    parse_one_field p = (trimmed s, []) := by
  have hq2 : q = DQ ∨ q = SQ := hq
  have h := parse_field_unterminated q s []
  simp only [List.nil_append] at h
  simp [parse_one_field, hp, open_quote, hq2, h, skip_comma, trim_field_eq_trimmed]

/-- One pass of the outer loop on a field that opens with a quote whose
region is closed: the field is the body of the region followed by the text
between the closing quote and the next comma. -/
theorem parse_one_field_closed (p : List Char) (q : Char) (s tail : List Char)
    (hq : IsQuote q) (ht : tail.head? ≠ some q)
    (hp : skip_ws p = q :: (double_quotes q s ++ q :: tail)) :
    parse_one_field p
      = (trimmed (s ++ tail.takeWhile (fun c => c != ',')),
         skip_comma (tail.dropWhile (fun c => c != ','))) := by
  have hq2 : q = DQ ∨ q = SQ := hq
  have h := parse_field_quoted q s tail ht []
  simp only [List.nil_append] at h
  simp [parse_one_field, hp, open_quote, hq2, h, parse_field_loop_unquoted,
    trim_field_eq_trimmed]


/-! ## The reading loop on every input -/

/-- The reading loop splits its input into what it appends to the buffer, a
line end that it drops, and the input it leaves: nothing is lost or changed.
At end of input nothing is dropped and nothing is left; after a `break` a
terminator was dropped. -/
theorem read_loop_decomp (inq : Bool) (q : Char) (line p : List Char) :
    ∃ body t, (read_csv_line_loop inq q line p).1 = line ++ body ∧
      p = body ++ t ++ (read_csv_line_loop inq q line p).2.1 ∧ IsLineEnd t ∧
      ((read_csv_line_loop inq q line p).2.2 = true →
        t = [] ∧ (read_csv_line_loop inq q line p).2.1 = []) ∧
      ((read_csv_line_loop inq q line p).2.2 = false → t ≠ []) := by
  induction inq, q, line, p using read_csv_line_loop.induct with
  | case1 inq q line =>
    exact ⟨[], [], by simp [read_csv_line_loop], by simp [read_csv_line_loop],
      Or.inl rfl, by simp [read_csv_line_loop], by simp [read_csv_line_loop]⟩
  | case2 inq q line c rest h ih =>
    have e : read_csv_line_loop inq q line (c :: rest)
        = read_csv_line_loop true c (line ++ [c]) rest := by
      rw [read_csv_line_loop.eq_def]; simp only [h, and_self, if_true]
    obtain ⟨body, t, h1, h2, h3, h4, h5⟩ := ih
    rw [e]
    exact ⟨c :: body, t, by rw [h1]; simp, by simp [← h2], h3, h4, h5⟩
  | case3 inq q line c h1 h2 =>
    have e : read_csv_line_loop inq q line [c] = (line ++ [c], [], true) := by
      rw [read_csv_line_loop.eq_def]; dsimp only; rw [if_neg h1, if_pos h2]
    rw [e]
    exact ⟨[c], [], rfl, by simp, Or.inl rfl, by simp, by simp⟩
  | case4 inq line c h1 d rest h2 ih =>
    obtain ⟨rfl, rfl⟩ := h2
    have e : read_csv_line_loop true c line (c :: c :: rest)
        = read_csv_line_loop true c (line ++ [c, c]) rest := by
      rw [read_csv_line_loop.eq_def]; simp only [h1, and_self, if_true, if_false]
    obtain ⟨body, t, h3, h4, h5, h6, h7⟩ := ih
    rw [e]
    exact ⟨c :: c :: body, t, by rw [h3]; simp, by simp [← h4], h5, h6, h7⟩
  | case5 inq q line c h1 h2 d rest h3 ih =>
    have e : read_csv_line_loop inq q line (c :: d :: rest)
        = read_csv_line_loop false q (line ++ [c]) (d :: rest) := by
      rw [read_csv_line_loop.eq_def]; dsimp only; rw [if_neg h1, if_pos h2, if_neg h3]
    obtain ⟨body, t, h4, h5, h6, h7, h8⟩ := ih
    rw [e]
    exact ⟨c :: body, t, by rw [h4]; simp, by rw [List.cons_append, List.cons_append, ← h5],
      h6, h7, h8⟩
  | case6 inq q line h1 h2 h3 =>
    have e : read_csv_line_loop inq q line ['\r'] = (line, [], false) := by
      rw [read_csv_line_loop.eq_def]; dsimp only; rw [if_neg h1, if_neg h2, if_pos h3, if_pos rfl]
    rw [e]
    exact ⟨[], ['\r'], by simp, by simp, Or.inr (Or.inr (Or.inl rfl)), by simp, by simp⟩
  | case7 inq q line rest h1 h2 h3 =>
    have e : read_csv_line_loop inq q line ('\r' :: '\n' :: rest) = (line, rest, false) := by
      rw [read_csv_line_loop.eq_def]; dsimp only
      rw [if_neg h1, if_neg h2, if_pos h3, if_pos rfl, if_pos rfl]
    rw [e]
    exact ⟨[], ['\r', '\n'], by simp, by simp, Or.inr (Or.inr (Or.inr rfl)), by simp, by simp⟩
  | case8 inq q line c rest hc h1 h2 h3 =>
    have e : read_csv_line_loop inq q line ('\r' :: c :: rest) = (line, c :: rest, false) := by
      rw [read_csv_line_loop.eq_def]; dsimp only
      rw [if_neg h1, if_neg h2, if_pos h3, if_pos rfl, if_neg hc]
    rw [e]
    exact ⟨[], ['\r'], by simp, by simp, Or.inr (Or.inr (Or.inl rfl)), by simp, by simp⟩
  | case9 inq q line c rest h1 h2 h3 h4 =>
    have e : read_csv_line_loop inq q line (c :: rest) = (line, rest, false) := by
      rw [read_csv_line_loop.eq_def]; dsimp only
      rw [if_neg h1, if_neg h2, if_pos h3, if_neg h4]
    have hc : c = '\n' := by
      rcases h3.2 with h | h
      · exact h
      · exact absurd h h4
    rw [e]
    exact ⟨[], ['\n'], by simp, by simp [hc], Or.inr (Or.inl rfl), by simp, by simp⟩
  | case10 inq q line c rest h1 h2 h3 ih =>
    have e := read_loop_step inq q c line rest h2 h1 h3
    obtain ⟨body, t, h4, h5, h6, h7, h8⟩ := ih
    rw [e]
    exact ⟨c :: body, t, by rw [h4]; simp, by simp [← h5], h6, h7, h8⟩


/-- On a non-empty input `read_csv_line` returns a line and leaves strictly
less input. -/
theorem read_csv_line_progress (file : List Char) (hne : file ≠ []) :
    (∃ line, (read_csv_line file).1 = some line) ∧
    (read_csv_line file).2.length < file.length := by
  obtain ⟨body, t, h1, h2, _, h4, h5⟩ := read_loop_decomp false NUL [] file
  rcases hr : read_csv_line_loop false NUL [] file with ⟨line, rest, eof⟩
  rw [hr] at h1 h2 h4 h5
  simp only [List.nil_append] at h1 h2 h4 h5
  have hlen := congrArg List.length h2
  simp only [List.length_append] at hlen
  cases eof with
  | true =>
    obtain ⟨ht, hrest⟩ := h4 rfl
    subst ht hrest h1
    have hb : line ≠ [] := by
      intro e
      apply hne
      rw [h2, e]
      rfl
    have hl : line.length ≠ 0 := fun e => hb (List.length_eq_zero.mp e)
    simp only [List.length_nil, Nat.add_zero] at hlen
    simp only [read_csv_line, hr, hl, false_and, if_false]
    exact ⟨⟨_, rfl⟩, by simp only [List.length_nil]; omega⟩
  | false =>
    have ht : t ≠ [] := h5 rfl
    have htl : 0 < t.length := List.length_pos.mpr ht
    simp only [read_csv_line, hr, Bool.false_eq_true, and_false, if_false]
    exact ⟨⟨_, rfl⟩, by show rest.length < file.length; omega⟩

/-- `read_csv_line` returns no line exactly at the end of input. -/
theorem read_csv_line_none_iff (file : List Char) :
    (read_csv_line file).1 = none ↔ file = [] := by
  constructor
  · intro h
    by_contra hne
    obtain ⟨⟨line, hl⟩, _⟩ := read_csv_line_progress file hne
    rw [hl] at h
    cases h
  · intro h
    subst h
    rfl

/-- The row loop ends on every input: fuel above the length of the input is
enough. -/
theorem read_csv_rows_total (fuel : Nat) :
    ∀ (file : List Char) (data : List (List (List Char))), file.length < fuel →
      ∃ rows, read_csv_rows fuel file data = some rows := by
  induction fuel with
  | zero => intro file data h; omega
  | succ n ih =>
    intro file data h
    rcases hr : read_csv_line file with ⟨l, rest⟩
    cases l with
    | none => exact ⟨data, by simp [read_csv_rows, hr]⟩
    | some line =>
      have hne : file ≠ [] := by
        intro e
        have := (read_csv_line_none_iff file).mpr e
        rw [hr] at this
        cases this
      have hp := (read_csv_line_progress file hne).2
      rw [hr] at hp
      simp only at hp
      by_cases hl : line.length = 0
      · obtain ⟨rows, hrows⟩ := ih rest data (by omega)
        exact ⟨rows, by simp [read_csv_rows, hr, hl, hrows]⟩
      · obtain ⟨fields, hf⟩ := parse_csv_line_total line
        obtain ⟨rows, hrows⟩ := ih rest (data ++ [fields]) (by omega)
        exact ⟨rows, by simp [read_csv_rows, hr, hl, hf, hrows]⟩

/-- `read_csv` returns a table on the contents of every file. -/
theorem read_csv_total (file : List Char) : ∃ csv, read_csv file = some csv := by
  rcases hr : read_csv_line file with ⟨l, rest⟩
  obtain ⟨rows, hrows⟩ := read_csv_rows_total (rest.length + 1) rest [] (Nat.lt_succ_self _)
  cases l with
  | none => exact ⟨⟨[], rows⟩, by simp [read_csv, hr, hrows]⟩
  | some line =>
    obtain ⟨hs, hh⟩ := parse_csv_line_total line
    exact ⟨⟨hs, rows⟩, by simp [read_csv, hr, hh, hrows]⟩


/-- The line returned by `read_csv_line` is the C string of a buffer that,
followed by a line end and the input left unread, is the input. -/
theorem read_csv_line_decomp (file line rest : List Char)
    (h : read_csv_line file = (some line, rest)) :
    ∃ buf t, IsLineEnd t ∧ file = buf ++ t ++ rest ∧ line = cstr buf := by
  obtain ⟨body, t, h1, h2, h3, _, _⟩ := read_loop_decomp false NUL [] file
  rcases hr : read_csv_line_loop false NUL [] file with ⟨buf, rest2, eof⟩
  rw [hr] at h1 h2
  simp only [List.nil_append] at h1 h2
  subst h1
  simp only [read_csv_line, hr] at h
  split at h
  · cases h
  · simp only [Prod.mk.injEq, Option.some.injEq] at h
    obtain ⟨hl, hrest⟩ := h
    subst hrest
    exact ⟨buf, t, h3, h2, hl.symm⟩


/-! ## Numeric fields and JSON numbers -/

/-- A JSON number token starts with `-` or with a digit. -/
theorem jsonNumber_head (v : List Char) (h : JsonNumber v) :
    v.head? = some '-' ∨ ∃ d, v.head? = some d ∧ isdigit d = true := by
  obtain ⟨sign, int, frac, hv, hs, hi, _⟩ := h
  rcases hs with hs | hs
  · right
    subst hs
    rcases hi with hi | ⟨d, ds, hi, hd, _, _⟩
    · subst hi; subst hv
      exact ⟨'0', rfl, by decide⟩
    · subst hi; subst hv
      exact ⟨d, rfl, hd⟩
  · left
    subst hs; subst hv
    rfl

theorem count_dot_digits (ds : List Char) (h : ∀ c ∈ ds, isdigit c = true) :
    ds.count '.' = 0 := by
  rw [List.count_eq_zero]
  intro hm
  have := h '.' hm
  revert this
  decide

/-- Every JSON number token is classified numeric. -/
theorem is_numeric_of_jsonNumber (v : List Char) (h : JsonNumber v) : is_numeric v = true := by
  obtain ⟨sign, int, frac, hv, hs, hi, hf⟩ := h
  have hint : int ≠ [] ∧ (∀ c ∈ int, isdigit c = true) := by
    rcases hi with hi | ⟨d, ds, hi, hd, _, hds⟩
    · subst hi
      exact ⟨by simp, by intro c hc; simp only [List.mem_singleton] at hc; subst hc; decide⟩
    · subst hi
      refine ⟨by simp, ?_⟩
      intro c hc
      rcases List.mem_cons.mp hc with e | e
      · rw [e]; exact hd
      · exact hds c e
  have hfrac : (∀ c ∈ frac, isdigit c = true ∨ c = '.') ∧ frac.count '.' ≤ 1 := by
    rcases hf with hf | ⟨ds, hf, _, hds⟩
    · subst hf; simp
    · subst hf
      refine ⟨?_, by simp [List.count_cons, count_dot_digits ds hds]⟩
      intro c hc
      rcases List.mem_cons.mp hc with e | e
      · exact Or.inr e
      · exact Or.inl (hds c e)
  rw [is_numeric_iff]
  left
  refine ⟨sign, int ++ frac, by rw [hv, List.append_assoc], ?_, by simp [hint.1], ?_, ?_⟩
  · rcases hs with hs | hs
    · exact Or.inl hs
    · exact Or.inr (Or.inr hs)
  · intro c hc
    rcases List.mem_append.mp hc with e | e
    · exact Or.inl (hint.2 c e)
    · exact hfrac.1 c e
  · rw [List.count_append, count_dot_digits int hint.2]
    omega

theorem jsonNumber_ne_nil (v : List Char) (h : JsonNumber v) : v ≠ [] := by
  intro e
  rcases jsonNumber_head v h with h1 | ⟨d, h1, _⟩ <;> rw [e] at h1 <;> cases h1

theorem print_json_value_numeric (v : List Char) (hne : v ≠ []) (h : is_numeric v = true) :
    print_json_value v = v := by
  have : v.length ≠ 0 := fun e => hne (List.length_eq_zero.mp e)
  simp [print_json_value, this, h]


/-! ## Styled and compact text without layout whitespace -/

theorem strip_spaces_append (a b : List Char) :
    strip_spaces (a ++ b) = strip_spaces a ++ strip_spaces b := by
  induction a with
  | nil => rfl
  | cons c a ih =>
    by_cases h : c = ' ' ∨ c = '\n' ∨ c = '\t'
    · rw [List.cons_append]
      simp only [strip_spaces, h, if_true, ih]
    · rw [List.cons_append]
      simp only [strip_spaces, h, if_false, ih, List.cons_append]

/-- A layout call of styled mode leaves nothing once the whitespace is
removed. -/
theorem strip_spaces_if_styled (styled : Bool) (s : List Char)
    (hs : strip_spaces s = []) : strip_spaces (render (if_styled styled s)) = [] := by
  cases styled
  · rfl
  · simpa [if_styled, render, Tok.text] using hs

theorem strip_spaces_member (csv : CSVData) (row : List (List Char)) (j : Nat) :
    strip_spaces (render (print_json_member csv true row j))
      = strip_spaces (render (print_json_member csv false row j)) := by
  simp only [print_json_member, render_append, strip_spaces_append,
    strip_spaces_if_styled true [' ', ' ', ' ', ' '] (by decide),
    strip_spaces_if_styled true ['\n'] (by decide),
    strip_spaces_if_styled false [' ', ' ', ' ', ' '] (by decide),
    strip_spaces_if_styled false ['\n'] (by decide)]

theorem strip_spaces_members (csv : CSVData) (row : List (List Char)) (n : Nat) :
    ∀ j, strip_spaces (render (print_json_members csv true row n j))
      = strip_spaces (render (print_json_members csv false row n j)) := by
  induction n with
  | zero => intro j; rfl
  | succ n ih =>
    intro j
    simp only [print_json_members, render_append, strip_spaces_append, strip_spaces_member, ih]

theorem strip_spaces_object (csv : CSVData) (i : Nat) :
    strip_spaces (render (print_json_object csv true i))
      = strip_spaces (render (print_json_object csv false i)) := by
  simp only [print_json_object, render_append, strip_spaces_append, strip_spaces_members,
    strip_spaces_if_styled true [' ', ' '] (by decide),
    strip_spaces_if_styled true ['\n'] (by decide),
    strip_spaces_if_styled false [' ', ' '] (by decide),
    strip_spaces_if_styled false ['\n'] (by decide)]

theorem strip_spaces_objects (csv : CSVData) (n : Nat) :
    ∀ i, strip_spaces (render (print_json_objects csv true n i))
      = strip_spaces (render (print_json_objects csv false n i)) := by
  induction n with
  | zero => intro i; rfl
  | succ n ih =>
    intro i
    simp only [print_json_objects, render_append, strip_spaces_append, strip_spaces_object, ih]

/-- The styled and the compact text are the same once spaces, line feeds
and tabs are removed. -/
theorem strip_spaces_print_json (csv : CSVData) :
    strip_spaces (print_json csv true) = strip_spaces (print_json csv false) := by
  simp only [print_json, print_json_calls, render_append, strip_spaces_append,
    strip_spaces_objects, strip_spaces_if_styled true ['\n'] (by decide),
    strip_spaces_if_styled false ['\n'] (by decide)]

theorem strip_spaces_eq_filter (s : List Char) :
    strip_spaces s = s.filter (fun c => !is_space c) := by
  induction s with
  | nil => rfl
  | cons c s ih =>
    by_cases h : c = ' ' ∨ c = '\n' ∨ c = '\t'
    · have hb : is_space c = true := by
        rcases h with h | h | h <;> subst h <;> decide
      simp [strip_spaces, h, List.filter_cons, hb, ih]
    · have hb : is_space c = false := by
        simp only [not_or] at h
        simp [is_space, h.1, h.2.1, h.2.2]
      simp [strip_spaces, h, List.filter_cons, hb, ih]


/-! ## Field counts -/

/-- The number of fields of a line is at most its length, and at least one
when the line is not empty. -/
theorem parse_csv_line_count (n : Nat) :
    ∀ (line : List Char) (fields : List (List Char)), line.length ≤ n →
      parse_csv_line line = some fields →
      fields.length ≤ line.length ∧ (line ≠ [] → 1 ≤ fields.length) := by
  induction n with
  | zero =>
    intro line fields hl hp
    have e : line = [] := List.length_eq_zero.mp (Nat.le_zero.mp hl)
    subst e
    rw [parse_csv_line_nil] at hp
    cases hp
    exact ⟨le_refl _, fun h => absurd rfl h⟩
  | succ n ih =>
    intro line fields hl hp
    cases line with
    | nil =>
      rw [parse_csv_line_nil] at hp
      cases hp
      exact ⟨le_refl _, fun h => absurd rfl h⟩
    | cons c rest =>
      have hlt := parse_one_field_length c rest
      rw [parse_csv_line_cons] at hp
      cases hr : parse_csv_line (parse_one_field (c :: rest)).2 with
      | none => rw [hr] at hp; cases hp
      | some fs =>
        rw [hr] at hp
        simp only [Option.some.injEq] at hp
        subst hp
        simp only [List.length_cons] at hl hlt
        have h2 := (ih _ fs (by omega) hr).1
        simp only [List.length_cons]
        exact ⟨by omega, fun _ => by omega⟩

/-- Every row added by the row loop has at least one field. -/
theorem read_csv_rows_ne_nil (fuel : Nat) :
    ∀ (file : List Char) (data rows : List (List (List Char))),
      (∀ r ∈ data, r ≠ []) → read_csv_rows fuel file data = some rows →
      ∀ r ∈ rows, r ≠ [] := by
  induction fuel with
  | zero => intro file data rows _ h; cases h
  | succ n ih =>
    intro file data rows hd h
    rcases hr : read_csv_line file with ⟨l, rest⟩
    cases l with
    | none =>
      simp only [read_csv_rows, hr, Option.some.injEq] at h
      subst h
      exact hd
    | some line =>
      by_cases hl : line.length = 0
      · simp only [read_csv_rows, hr, hl, if_true] at h
        exact ih rest data rows hd h
      · cases hp : parse_csv_line line with
        | none =>
          simp only [read_csv_rows, hr, hl, if_false, hp, Option.some.injEq] at h
          subst h
          exact hd
        | some fields =>
          simp only [read_csv_rows, hr, hl, if_false, hp] at h
          have hne : line ≠ [] := fun e => hl (by rw [e]; rfl)
          have hf : fields ≠ [] := by
            intro e
            have := (parse_csv_line_count line.length line fields (le_refl _) hp).2 hne
            rw [e] at this
            simp at this
          refine ih rest (data ++ [fields]) rows ?_ h
          intro r hr2
          rcases List.mem_append.mp hr2 with h1 | h1
          · exact hd r h1
          · simp only [List.mem_singleton] at h1
            rw [h1]; exact hf

/-- Every row of the table returned by `read_csv` has at least one field. -/
theorem read_csv_rows_nonempty (file : List Char) (csv : CSVData)
    (h : read_csv file = some csv) : ∀ r ∈ csv.data, r ≠ [] := by
  rcases hr : read_csv_line file with ⟨l, rest⟩
  cases l with
  | none =>
    simp only [read_csv, hr] at h
    cases hrows : read_csv_rows (rest.length + 1) rest [] with
    | none => rw [hrows] at h; cases h
    | some rows =>
      rw [hrows] at h
      simp only [Option.some.injEq] at h
      subst h
      exact read_csv_rows_ne_nil _ rest [] rows (fun r hr2 => absurd hr2 (List.not_mem_nil r)) hrows
  | some line =>
    simp only [read_csv, hr] at h
    cases hp : parse_csv_line line with
    | none => rw [hp] at h; cases h
    | some hs =>
      rw [hp] at h
      cases hrows : read_csv_rows (rest.length + 1) rest [] with
      | none => rw [hrows] at h; cases h
      | some rows =>
        rw [hrows] at h
        simp only [Option.some.injEq] at h
        subst h
        exact read_csv_rows_ne_nil _ rest [] rows
          (fun r hr2 => absurd hr2 (List.not_mem_nil r)) hrows


/-! ## Buffer sizes -/

theorem sizes_open (inq : Bool) (q c : Char) (l cap : Nat) (rest : List Char)
    (h : inq = false ∧ (c = DQ ∨ c = SQ)) :
    read_csv_line_sizes inq q l cap (c :: rest)
      = (l + 1, grow l cap) :: read_csv_line_sizes true c (l + 1) (grow l cap) rest := by
  rw [read_csv_line_sizes.eq_def]; dsimp only; rw [if_pos h]

theorem sizes_close_eof (inq : Bool) (q c : Char) (l cap : Nat)
    (h1 : ¬ (inq = false ∧ (c = DQ ∨ c = SQ))) (h2 : inq = true ∧ c = q) :
    read_csv_line_sizes inq q l cap [c] = [(l + 1, grow l cap)] := by
  rw [read_csv_line_sizes.eq_def]; dsimp only; rw [if_neg h1, if_pos h2]

theorem sizes_doubled (inq : Bool) (q c d : Char) (l cap : Nat) (rest : List Char)
    (h1 : ¬ (inq = false ∧ (c = DQ ∨ c = SQ))) (h2 : inq = true ∧ c = q) (h3 : d = q) :
    read_csv_line_sizes inq q l cap (c :: d :: rest)
      = (l + 2, grow l cap) :: read_csv_line_sizes inq q (l + 2) (grow l cap) rest := by
  rw [read_csv_line_sizes.eq_def]; dsimp only; rw [if_neg h1, if_pos h2, if_pos h3]

theorem sizes_close (inq : Bool) (q c d : Char) (l cap : Nat) (rest : List Char)
    (h1 : ¬ (inq = false ∧ (c = DQ ∨ c = SQ))) (h2 : inq = true ∧ c = q) (h3 : ¬ d = q) :
    read_csv_line_sizes inq q l cap (c :: d :: rest)
      = (l + 1, grow l cap) :: read_csv_line_sizes false q (l + 1) (grow l cap) (d :: rest) := by
  rw [read_csv_line_sizes.eq_def]; dsimp only; rw [if_neg h1, if_pos h2, if_neg h3]

theorem sizes_break (inq : Bool) (q c : Char) (l cap : Nat) (rest : List Char)
    (h1 : ¬ (inq = false ∧ (c = DQ ∨ c = SQ))) (h2 : ¬ (inq = true ∧ c = q))
    (h3 : inq = false ∧ (c = '\n' ∨ c = '\r')) :
    read_csv_line_sizes inq q l cap (c :: rest) = [(l, grow l cap)] := by
  rw [read_csv_line_sizes.eq_def]; dsimp only; rw [if_neg h1, if_neg h2, if_pos h3]

theorem sizes_plain (inq : Bool) (q c : Char) (l cap : Nat) (rest : List Char)
    (h1 : ¬ (inq = false ∧ (c = DQ ∨ c = SQ))) (h2 : ¬ (inq = true ∧ c = q))
    (h3 : ¬ (inq = false ∧ (c = '\n' ∨ c = '\r'))) :
    read_csv_line_sizes inq q l cap (c :: rest)
      = (l + 1, grow l cap) :: read_csv_line_sizes inq q (l + 1) (grow l cap) rest := by
  rw [read_csv_line_sizes.eq_def]; dsimp only; rw [if_neg h1, if_neg h2, if_neg h3]

/-- After the check at the top of the loop there is room for two bytes,
provided the length was at most the capacity. -/
theorem grow_room (l cap : Nat) (h1 : l ≤ cap) (h2 : 2 ≤ cap) :
    l + 2 ≤ grow l cap ∧ 2 ≤ grow l cap := by
  unfold grow
  split <;> omega

/-- After every iteration of the loop the length is at most the capacity:
every character written by the loop falls inside the buffer. -/
theorem sizes_le_capacity (inq : Bool) (q : Char) (l cap : Nat) (file : List Char) :
    l ≤ cap → 2 ≤ cap →
      ∀ s ∈ read_csv_line_sizes inq q l cap file, s.1 ≤ s.2 ∧ 2 ≤ s.2 := by
  induction inq, q, l, cap, file using read_csv_line_sizes.induct with
  | case1 inq q l cap => intro _ _ s hs; cases hs
  | case2 inq q l cap c rest h ih =>
    intro h1 h2 s hs
    have hg := grow_room l cap h1 h2
    rw [sizes_open inq q c l cap rest h] at hs
    rcases List.mem_cons.mp hs with e | e
    · subst e; exact ⟨by simp only []; omega, hg.2⟩
    · exact ih (by omega) hg.2 s e
  | case3 inq q l cap c h1 h2 =>
    intro h3 h4 s hs
    have hg := grow_room l cap h3 h4
    rw [sizes_close_eof inq q c l cap h1 h2] at hs
    simp only [List.mem_singleton] at hs
    subst hs; exact ⟨by simp only []; omega, hg.2⟩
  | case4 inq l cap c h1 d rest h2 ih =>
    intro h3 h4 s hs
    have hg := grow_room l cap h3 h4
    rw [sizes_doubled inq d c d l cap rest h1 h2 rfl] at hs
    rcases List.mem_cons.mp hs with e | e
    · subst e; exact ⟨hg.1, hg.2⟩
    · exact ih hg.1 hg.2 s e
  | case5 inq q l cap c h1 h2 d rest h3 ih =>
    intro h4 h5 s hs
    have hg := grow_room l cap h4 h5
    rw [sizes_close inq q c d l cap rest h1 h2 h3] at hs
    rcases List.mem_cons.mp hs with e | e
    · subst e; exact ⟨by simp only []; omega, hg.2⟩
    · exact ih (by omega) hg.2 s e
  | case6 inq q l cap c rest h1 h2 h3 =>
    intro h4 h5 s hs
    have hg := grow_room l cap h4 h5
    rw [sizes_break inq q c l cap rest h1 h2 h3] at hs
    simp only [List.mem_singleton] at hs
    subst hs; exact ⟨by simp only []; omega, hg.2⟩
  | case7 inq q l cap c rest h1 h2 h3 ih =>
    intro h4 h5 s hs
    have hg := grow_room l cap h4 h5
    rw [sizes_plain inq q c l cap rest h1 h2 h3] at hs
    rcases List.mem_cons.mp hs with e | e
    · subst e; exact ⟨by simp only []; omega, hg.2⟩
    · exact ih (by omega) hg.2 s e


theorem read_loop_break_fst (inq : Bool) (q c : Char) (line rest : List Char)
    (h1 : ¬ (inq = false ∧ (c = DQ ∨ c = SQ))) (h2 : ¬ (inq = true ∧ c = q))
    (h3 : inq = false ∧ (c = '\n' ∨ c = '\r')) :
    (read_csv_line_loop inq q line (c :: rest)).1 = line := by
  rw [read_csv_line_loop.eq_def]; dsimp only; rw [if_neg h1, if_neg h2, if_pos h3]
  split
  · split
    · rfl
    · split <;> rfl
  · rfl

/-- The length carried by the loop on sizes is the length of the buffer
filled by the reading loop. -/
theorem final_sizes_length (inq : Bool) (q : Char) (l cap : Nat) (file : List Char) :
    ∀ line : List Char, line.length = l →
      (final_sizes l cap (read_csv_line_sizes inq q l cap file)).1
        = (read_csv_line_loop inq q line file).1.length := by
  induction inq, q, l, cap, file using read_csv_line_sizes.induct with
  | case1 inq q l cap =>
    intro line hl
    simp [read_csv_line_sizes, final_sizes, read_csv_line_loop, hl]
  | case2 inq q l cap c rest h ih =>
    intro line hl
    have e : read_csv_line_loop inq q line (c :: rest)
        = read_csv_line_loop true c (line ++ [c]) rest := by
      rw [read_csv_line_loop.eq_def]; dsimp only; rw [if_pos h]
    rw [sizes_open inq q c l cap rest h, e, final_sizes]
    exact ih (line ++ [c]) (by simp [hl])
  | case3 inq q l cap c h1 h2 =>
    intro line hl
    have e : read_csv_line_loop inq q line [c] = (line ++ [c], [], true) := by
      rw [read_csv_line_loop.eq_def]; dsimp only; rw [if_neg h1, if_pos h2]
    rw [sizes_close_eof inq q c l cap h1 h2, e]
    simp [final_sizes, hl]
  | case4 inq l cap c h1 d rest h2 ih =>
    intro line hl
    have e : read_csv_line_loop inq d line (c :: d :: rest)
        = read_csv_line_loop inq d (line ++ [c, d]) rest := by
      rw [read_csv_line_loop.eq_def]; dsimp only; rw [if_neg h1, if_pos h2, if_pos rfl]
    rw [sizes_doubled inq d c d l cap rest h1 h2 rfl, e, final_sizes]
    exact ih (line ++ [c, d]) (by simp [hl])
  | case5 inq q l cap c h1 h2 d rest h3 ih =>
    intro line hl
    have e : read_csv_line_loop inq q line (c :: d :: rest)
        = read_csv_line_loop false q (line ++ [c]) (d :: rest) := by
      rw [read_csv_line_loop.eq_def]; dsimp only; rw [if_neg h1, if_pos h2, if_neg h3]
    rw [sizes_close inq q c d l cap rest h1 h2 h3, e, final_sizes]
    exact ih (line ++ [c]) (by simp [hl])
  | case6 inq q l cap c rest h1 h2 h3 =>
    intro line hl
    rw [sizes_break inq q c l cap rest h1 h2 h3, read_loop_break_fst inq q c line rest h1 h2 h3]
    simp [final_sizes, hl]
  | case7 inq q l cap c rest h1 h2 h3 ih =>
    intro line hl
    rw [sizes_plain inq q c l cap rest h1 h2 h3, read_loop_step inq q c line rest h2 h1 h3,
      final_sizes]
    exact ih (line ++ [c]) (by simp [hl])

/-- Inside quotes, a run of characters other than the quote adds its length
and leaves the capacity as it is while there is room. -/
theorem final_sizes_quoted_run (q : Char) (cap : Nat) (s tail : List Char)
    (hs : ∀ c ∈ s, c ≠ q) :
    ∀ l, l + s.length + 1 ≤ cap →
      final_sizes l cap (read_csv_line_sizes true q l cap (s ++ tail))
        = final_sizes (l + s.length) cap
            (read_csv_line_sizes true q (l + s.length) cap tail) := by
  induction s with
  | nil => intro l _; rfl
  | cons c s ih =>
    intro l hl
    simp only [List.length_cons] at hl
    have hc : c ≠ q := hs c (by simp)
    have hg : grow l cap = cap := by
      unfold grow
      rw [if_neg (by omega)]
    rw [List.cons_append, sizes_plain true q c l cap _ (by simp) (by simp [hc]) (by simp),
      final_sizes, hg]
    simp only []
    rw [ih (fun d hd => hs d (List.mem_cons_of_mem _ hd)) (l + 1) (by omega)]
    simp only [List.length_cons]
    rw [show l + 1 + s.length = l + (s.length + 1) by omega]

/-- The sizes when the loop is left on the input of 256 bytes that ends with
a doubled quote: the length has reached the capacity. -/
theorem final_sizes_doubled_quote_at_254 :
    final_sizes 0 256 (read_csv_line_sizes false NUL 0 256 doubled_quote_at_254)
      = (256, 256) := by
  have hrun := final_sizes_quoted_run DQ 256 (List.replicate 253 'a') [DQ, DQ]
    (by
      intro c hc
      rw [List.eq_of_mem_replicate hc]
      decide)
    1 (by rw [List.length_replicate]; omega)
  have hopen : read_csv_line_sizes false NUL 0 256 doubled_quote_at_254
      = (1, 256) :: read_csv_line_sizes true DQ 1 256 (List.replicate 253 'a' ++ [DQ, DQ]) := by
    unfold doubled_quote_at_254
    rw [sizes_open false NUL DQ 0 256 _ (by decide)]
    rfl
  rw [hopen, final_sizes]
  simp only []
  rw [hrun]
  simp only [List.length_replicate]
  decide


theorem final_sizes_mem (t : List (Nat × Nat)) :
    ∀ l cap, final_sizes l cap t = (l, cap) ∨ final_sizes l cap t ∈ t := by
  induction t with
  | nil => intro l cap; exact Or.inl rfl
  | cons s t ih =>
    intro l cap
    right
    rcases ih s.1 s.2 with h | h
    · rw [final_sizes, h]; simp
    · rw [final_sizes]; exact List.mem_cons_of_mem _ h


/-! ## The claims -/

/-- C1. CSV write/read round trip through `read_csv`: for a table with a
header record and rows, every record with at least one field, no field with
a NUL byte or a space or tab at either end, each field written as `q`, the
field with every `q` doubled, `q`, for a quote character chosen per field,
the fields joined by `,` and every record followed by LF or CR LF,
`read_csv` returns exactly the original headers and exactly the original
rows, in order and with the original field counts. -/
theorem read_csv_round_trip (hdr : List (Char × List Char) × List Char)
    (rows : List (List (Char × List Char) × List Char))
    (hh : WellWritten hdr) (hr : ∀ r ∈ rows, WellWritten r) :
    read_csv (encode_table (hdr :: rows))
      = some ⟨hdr.1.map (fun p => p.2), rows.map (fun r => r.1.map (fun p => p.2))⟩ :=
  read_csv_encode_table hdr rows hh hr

/-- Witness of C1: a two-column table whose fields hold a comma, both quote
characters, a line feed and a carriage return, with mixed quote characters
and mixed terminators. -/
theorem read_csv_round_trip_witness :
    read_csv (encode_table
      [([(DQ, ['i', 'd']), (SQ, ['n', ',', DQ])], ['\n']),
       ([(SQ, ['1']), (DQ, ['a', '\n', SQ, DQ, '\r', 'b'])], ['\r', '\n']),
       ([(DQ, [])], ['\n'])])
      = some ⟨[['i', 'd'], ['n', ',', DQ]],
          [[['1'], ['a', '\n', SQ, DQ, '\r', 'b']], [[]]]⟩ :=
  read_csv_round_trip ([(DQ, ['i', 'd']), (SQ, ['n', ',', DQ])], ['\n'])
    [([(SQ, ['1']), (DQ, ['a', '\n', SQ, DQ, '\r', 'b'])], ['\r', '\n']),
     ([(DQ, [])], ['\n'])]
    (by decide) (by decide)

/-- C2. For every list of fields, each written with its own quote character
`q` as `q`, the field with each `q` doubled, `q`, and the written fields
joined by `,`, `parse_csv_line` returns exactly the fields with leading and
trailing spaces and tabs trimmed, same length and order.  In particular the
written field with a doubled quote gives one literal quote, and a comma
inside a quoted field does not split it. -/
theorem parse_csv_line_quoting_round_trip (r : List (Char × List Char))
    (hq : ∀ p ∈ r, IsQuote p.1) :
    parse_csv_line (encode_record r) = some (r.map (fun p => trimmed p.2)) ∧
    parse_csv_line "\"He said \"\"Hello\"\"\"".toList = some ["He said \"Hello\"".toList] ∧
    parse_csv_line "\"A, B, C\"".toList = some ["A, B, C".toList] := by
  refine ⟨?_, by decide, by decide⟩
  rw [parse_csv_line_encode_record r hq]
  simp [trim_field_eq_trimmed]

/-- Witness of C2: three fields, quoted with different quote characters,
holding commas, both quote characters and blanks at the edges. -/
theorem parse_csv_line_quoting_round_trip_witness :
    parse_csv_line (encode_record
        [(DQ, [' ', 'a', ',', DQ, 'b', '\t']), (SQ, [SQ, DQ, ',']), (DQ, [])])
      = some [['a', ',', DQ, 'b'], [SQ, DQ, ','], []] :=
  (parse_csv_line_quoting_round_trip
    [(DQ, [' ', 'a', ',', DQ, 'b', '\t']), (SQ, [SQ, DQ, ',']), (DQ, [])]
    (by decide)).1

/-- C3. A quoted field written as `q`, the body `s` with every `q` doubled,
`q`, and followed by a line feed is read by `read_csv_line` as one logical
line, byte for byte (line feeds and carriage returns inside the quotes
included), and exactly the input after that line feed is left unread; the
field splitter then gives one field, the body itself (trimmed of spaces and
tabs at its ends), line feeds included. -/
theorem read_csv_line_quoted_newlines (q : Char) (s rest : List Char)
    (hq : IsQuote q) (hs : NUL ∉ s) :
    read_csv_line (quote_field q s ++ '\n' :: rest) = (some (quote_field q s), rest) ∧
    parse_csv_line (quote_field q s) = some [trimmed s] := by
  constructor
  · have hloop : read_csv_line_loop false NUL [] (quote_field q s ++ '\n' :: rest)
        = (quote_field q s, rest, false) := by
      have hne : ('\n' :: rest).head? ≠ some q := by
        rcases hq with h | h <;> subst h <;> simp <;> decide
      simp only [quote_field, List.append_assoc, List.singleton_append, List.cons_append,
        List.nil_append]
      rw [read_loop_open NUL q hq, read_loop_quoted q s _ hne, read_loop_lf]
      simp
    rw [read_csv_line_of_break _ _ _ hloop, cstr_eq_self _ (nul_not_mem_quote_field q hq s hs)]
  · have h := parse_csv_line_encode_record [(q, s)] (by simpa using hq)
    simpa [encode_record, join_commas, trim_field_eq_trimmed] using h

/-- Witness of C3: a double-quoted field spanning two physical lines, holding
also a carriage return, a comma, a doubled quote and a single quote. -/
theorem read_csv_line_quoted_newlines_witness :
    read_csv_line (quote_field DQ ['a', '\n', '\r', ',', DQ, SQ, 'b'] ++ '\n' :: ['x', '\n'])
      = (some (quote_field DQ ['a', '\n', '\r', ',', DQ, SQ, 'b']), ['x', '\n']) ∧
    parse_csv_line (quote_field DQ ['a', '\n', '\r', ',', DQ, SQ, 'b'])
      = some [['a', '\n', '\r', ',', DQ, SQ, 'b']] :=
  read_csv_line_quoted_newlines DQ ['a', '\n', '\r', ',', DQ, SQ, 'b'] ['x', '\n']
    (by decide) (by decide)

/-- C4, as stated, fails: the claim lets `s` hold a NUL byte, and the line
returned is a C string, which ends at the first NUL of the buffer.  On the
input `a`, NUL, `b`, line feed, the line returned is `a`. -/
theorem read_csv_line_plain_nul_counterexample :
    (∀ c ∈ ['a', NUL, 'b'], Plain c) ∧
    read_csv_line (['a', NUL, 'b'] ++ '\n' :: []) = (some ['a'], []) ∧
    ¬ (∀ s rest : List Char, (∀ c ∈ s, Plain c) →
        read_csv_line (s ++ '\n' :: rest) = (some s, rest)) := by
  refine ⟨by decide, by decide, fun h => ?_⟩
  have h2 := h ['a', NUL, 'b'] [] (by decide)
  revert h2
  decide

/-- C4, amended. For every string `s` holding no quote character, no line
feed, no carriage return and no NUL byte, and every remaining input `rest`,
`read_csv_line` returns `s` without the terminator and leaves exactly `rest`
unread on `s` + LF + `rest`, on `s` + CR LF + `rest`, and on `s` + CR + `rest`
when `rest` does not begin with LF; and on a non-empty `s` followed by the
end of input it returns `s`. -/
theorem read_csv_line_terminators (s rest : List Char)
    (hs : ∀ c ∈ s, Plain c) (hn : NUL ∉ s) :
    read_csv_line (s ++ '\n' :: rest) = (some s, rest) ∧
    read_csv_line (s ++ '\r' :: '\n' :: rest) = (some s, rest) ∧
    (rest.head? ≠ some '\n' → read_csv_line (s ++ '\r' :: rest) = (some s, rest)) ∧
    (s ≠ [] → read_csv_line s = (some s, [])) :=
  ⟨read_csv_line_plain_lf s rest hs hn, read_csv_line_plain_crlf s rest hs hn,
    read_csv_line_plain_cr s rest hs hn, read_csv_line_plain_eof s hs hn⟩

/-- Witness of C4 (amended) at the line `a,b` followed by `c`. -/
theorem read_csv_line_terminators_witness :
    read_csv_line (['a', ',', 'b'] ++ '\n' :: ['c']) = (some ['a', ',', 'b'], ['c']) ∧
    read_csv_line (['a', ',', 'b'] ++ '\r' :: '\n' :: ['c']) = (some ['a', ',', 'b'], ['c']) ∧
    read_csv_line (['a', ',', 'b'] ++ '\r' :: ['c']) = (some ['a', ',', 'b'], ['c']) ∧
    read_csv_line ['a', ',', 'b'] = (some ['a', ',', 'b'], []) :=
  have h := read_csv_line_terminators ['a', ',', 'b'] ['c'] (by decide) (by decide)
  ⟨h.1, h.2.1, h.2.2.1 (by decide), h.2.2.2 (by decide)⟩

/-- C5. Table construction skips blank lines and nothing else: for physical
lines free of quote characters, LF, CR and NUL, joined by line feeds with or
without a final line feed, `read_csv` returns a table whose headers are
`parse_csv_line` of the first line and whose rows are `parse_csv_line` of
exactly the later lines that are not zero-length, in order; so the number of
rows, and of objects opened by `print_json`, is the number of non-empty
lines after the header line, and no row is padded or cut to the header
count. -/
theorem read_csv_skips_blank_lines (l0 : List Char) (ls : List (List Char)) (final : Bool)
    (hv : ∀ l ∈ l0 :: ls, (∀ c ∈ l, Plain c) ∧ NUL ∉ l) :
    ∃ csv, read_csv (text_of_lines (l0 :: ls) final) = some csv ∧
      some csv.headers = parse_csv_line l0 ∧
      csv.data.map some = (ls.filter (fun l => decide (l ≠ []))).map parse_csv_line ∧
      csv.data.length = (ls.filter (fun l => decide (l ≠ []))).length ∧
      ∀ styled, count_objects (print_json_calls csv styled)
        = (ls.filter (fun l => decide (l ≠ []))).length := by
  obtain ⟨csv, h1, h2, h3⟩ := read_csv_text_of_lines l0 ls final hv
  have hlen : csv.data.length = (ls.filter (fun l => decide (l ≠ []))).length := by
    have := congrArg List.length h3
    simpa using this
  exact ⟨csv, h1, h2, h3, hlen, fun styled => by rw [count_objects_print_json, hlen]⟩

/-- Witness of C5: a header line, two blank lines among three data lines of
one, three and one field (the last one a line of a single space). -/
theorem read_csv_skips_blank_lines_witness :
    ∃ csv, read_csv (text_of_lines
        ("a,b".toList :: ["1".toList, [], "2,3,4".toList, [], " ".toList]) true) = some csv ∧
      some csv.headers = parse_csv_line "a,b".toList ∧
      csv.data.map some
        = (["1".toList, [], "2,3,4".toList, [], " ".toList].filter
            (fun l => decide (l ≠ []))).map parse_csv_line ∧
      csv.data.length
        = (["1".toList, [], "2,3,4".toList, [], " ".toList].filter
            (fun l => decide (l ≠ []))).length ∧
      ∀ styled, count_objects (print_json_calls csv styled)
        = (["1".toList, [], "2,3,4".toList, [], " ".toList].filter
            (fun l => decide (l ≠ []))).length :=
  read_csv_skips_blank_lines "a,b".toList ["1".toList, [], "2,3,4".toList, [], " ".toList] true
    (by decide)

/-- C6. Empty input is a valid empty table: on an input exhausted before
any character is read, `read_csv` returns a table, with zero headers and
zero rows, and `print_json` renders it as `[]` in compact mode. -/
theorem read_csv_empty_input :
    read_csv [] = some ⟨[], []⟩ ∧
    print_json ⟨[], []⟩ false = ['[', ']'] := by
  constructor <;> rfl

/-- C7. The numeric pattern of the claim asks for a non-empty part after the
optional sign; `is_numeric` tests for the empty string before it skips the
sign, so it accepts `-` and `+` alone, and `print_json_value` prints them
bare.  On every other string `is_numeric` agrees with the pattern. -/
theorem is_numeric_sign_only :
    is_numeric ['-'] = true ∧ ¬ NumericPattern ['-'] ∧
    is_numeric ['+'] = true ∧ ¬ NumericPattern ['+'] ∧
    print_json_value ['-'] = ['-'] ∧
    (∀ s, s ≠ ['-'] → s ≠ ['+'] → (is_numeric s = true ↔ NumericPattern s)) := by
  refine ⟨by decide, not_numericPattern_sign _ (Or.inl rfl), by decide,
    not_numericPattern_sign _ (Or.inr rfl), by decide, ?_⟩
  intro s h1 h2
  rw [is_numeric_iff]
  simp [h1, h2]

/-- C8. Value rendering by classification: `print_json_value` prints two
double quotes for the empty field, the field itself, unquoted, when it is
non-empty and `is_numeric` holds, and otherwise the escaped field between
double quotes.  So `42`, `-10` and `3.14` are printed as they are, `abc123`
and `12.34.56` are printed quoted, and the empty field as two quotes. -/
theorem print_json_value_by_classification (v : List Char) :
    (v = [] → print_json_value v = [DQ, DQ]) ∧
    (v ≠ [] → is_numeric v = true → print_json_value v = v) ∧
    (v ≠ [] → is_numeric v = false → print_json_value v = [DQ] ++ escape_loop v ++ [DQ]) ∧
    print_json_value "42".toList = "42".toList ∧
    print_json_value "-10".toList = "-10".toList ∧
    print_json_value "3.14".toList = "3.14".toList ∧
    print_json_value "abc123".toList = "\"abc123\"".toList ∧
    print_json_value "12.34.56".toList = "\"12.34.56\"".toList ∧
    print_json_value [] = "\"\"".toList := by
  refine ⟨?_, ?_, ?_, by decide, by decide, by decide, by decide, by decide, by decide⟩
  · intro h; subst h; rfl
  · intro h1 h2
    have : v.length ≠ 0 := fun e => h1 (List.length_eq_zero.mp e)
    simp [print_json_value, this, h2]
  · intro h1 h2
    have : v.length ≠ 0 := fun e => h1 (List.length_eq_zero.mp e)
    simp [print_json_value, this, h2]

/-- Witness of C8 at the numeric field `3.14` and the text field `a"b`. -/
theorem print_json_value_by_classification_witness :
    print_json_value "3.14".toList = "3.14".toList ∧
    print_json_value "a\"b".toList = "\"a\\\"b\"".toList :=
  ⟨(print_json_value_by_classification "3.14".toList).2.1 (by decide) (by decide),
   (print_json_value_by_classification "a\"b".toList).2.2.1 (by decide) (by decide)⟩

/-- C9. Escaping round trip: for every non-empty field `v` that is not
classified numeric, `print_json_value` prints a double quote, `e(v)` and a
double quote, where `e` replaces the double quote, the backslash, LF, CR and
tab by a backslash followed by `"`, `\`, `n`, `r`, `t` and copies every
other byte; reading `e(v)` back left to right gives `v`, so `e` is
injective. -/
theorem print_json_value_escaping_round_trip (v : List Char)
    (hne : v ≠ []) (hnum : is_numeric v = false) :
    print_json_value v = [DQ] ++ escape_loop v ++ [DQ] ∧
    escape_loop v = (v.map escape_char).flatten ∧
    escape_char DQ = [BSL, DQ] ∧ escape_char BSL = [BSL, BSL] ∧
    escape_char '\n' = [BSL, 'n'] ∧ escape_char '\r' = [BSL, 'r'] ∧
    escape_char '\t' = [BSL, 't'] ∧
    (∀ c, c ≠ DQ → c ≠ BSL → c ≠ '\n' → c ≠ '\r' → c ≠ '\t' → escape_char c = [c]) ∧
    unescape (escape_loop v) = v ∧
    (∀ w, escape_loop w = escape_loop v → w = v) := by
  have hl : v.length ≠ 0 := fun e => hne (List.length_eq_zero.mp e)
  refine ⟨by simp [print_json_value, hl, hnum], escape_loop_eq_flatten v, by decide, by decide,
    by decide, by decide, by decide, ?_, unescape_escape_loop v, ?_⟩
  · intro c h1 h2 h3 h4 h5
    simp [escape_char, h1, h2, h3, h4, h5]
  · intro w hw
    rw [← unescape_escape_loop w, hw, unescape_escape_loop]

/-- Witness of C9: a field holding each of the five escaped characters. -/
theorem print_json_value_escaping_round_trip_witness :
    print_json_value ['a', DQ, BSL, '\n', '\r', '\t', 'n']
      = [DQ, 'a', BSL, DQ, BSL, BSL, BSL, 'n', BSL, 'r', BSL, 't', 'n', DQ] ∧
    unescape (escape_loop ['a', DQ, BSL, '\n', '\r', '\t', 'n'])
      = ['a', DQ, BSL, '\n', '\r', '\t', 'n'] :=
  have h := print_json_value_escaping_round_trip ['a', DQ, BSL, '\n', '\r', '\t', 'n']
    (by decide) (by decide)
  ⟨h.1, h.2.2.2.2.2.2.2.2.1⟩

/-- C10. For every table and every row of it, the keys `print_json` prints
for the row's object are the headers, each once and in the original order,
whatever the number of fields of the row; over the whole output the keys are
the header sequence once per row. -/
theorem print_json_keys_are_headers (csv : CSVData) (styled : Bool) :
    (∀ i, i < csv.data.length → keys_of (print_json_object csv styled i) = csv.headers) ∧
    keys_of (print_json_calls csv styled)
      = (List.replicate csv.data.length csv.headers).flatten := by
  refine ⟨fun i _ => keys_of_object csv styled i, ?_⟩
  simp [print_json_calls, keys_of_append, keys_of_if_styled, keys_of_objects, keys_of]

/-- Witness of C10: a table with two headers and rows of one, two and three
fields. -/
theorem print_json_keys_are_headers_witness :
    keys_of (print_json_object
      ⟨[['a'], ['b']], [[['1']], [['2'], ['3']], [['4'], ['5'], ['6']]]⟩ true 2)
      = [['a'], ['b']] :=
  (print_json_keys_are_headers
    ⟨[['a'], ['b']], [[['1']], [['2'], ['3']], [['4'], ['5'], ['6']]]⟩ true).1 2 (by decide)

/-- C11. Mismatched field counts are resolved at render time: for a table
with `H` headers and a row with `k` fields, the values printed for the row
are, for each header index `j < H` in order, `print_json_value` of field `j`
when `j < k` and two double quotes when `j ≥ k`, so exactly `H` values and
no field of index `H` or more; a row renders identically to the same row
padded with empty fields up to `H` and to its first `H` fields, and so does
the whole table. -/
theorem print_json_mismatched_fields (csv : CSVData) (styled : Bool) (row : List (List Char)) :
    values_of (print_json_members csv styled row csv.headers.length 0)
      = (List.range csv.headers.length).map
          (fun j => if j < row.length then print_json_value (row.getD j []) else [DQ, DQ]) ∧
    print_json_members csv styled (row ++ List.replicate (csv.headers.length - row.length) [])
        csv.headers.length 0
      = print_json_members csv styled row csv.headers.length 0 ∧
    print_json_members csv styled (row.take csv.headers.length) csv.headers.length 0
      = print_json_members csv styled row csv.headers.length 0 ∧
    print_json ⟨csv.headers, csv.data.map (fun r =>
        r ++ List.replicate (csv.headers.length - r.length) [])⟩ styled
      = print_json csv styled ∧
    print_json ⟨csv.headers, csv.data.map (fun r => r.take csv.headers.length)⟩ styled
      = print_json csv styled := by
  refine ⟨?_, ?_, ?_, ?_, ?_⟩
  · rw [values_of_members csv styled row _ 0 (Nat.zero_add _), List.range_eq_range']
    rfl
  · exact print_json_members_congr csv styled row _
      (fun j hj => value_at_pad_row _ row j hj) _ 0 (Nat.zero_add _)
  · exact print_json_members_congr csv styled row _
      (fun j hj => value_at_take _ row j hj) _ 0 (Nat.zero_add _)
  · have h := print_json_calls_map csv.headers csv.data styled (pad_row csv.headers.length)
      (fun r j hj => value_at_pad_row _ r j hj)
    simp only [print_json]
    exact congrArg render h
  · have h := print_json_calls_map csv.headers csv.data styled
      (fun r => r.take csv.headers.length) (fun r j hj => value_at_take _ r j hj)
    simp only [print_json]
    exact congrArg render h


/-- C12, as stated, fails: on the header line `a,b` and the data line
`1,"x,y"` the compact text has no space after the comma between the two
members, so it is not the text of the claim. -/
theorem end_to_end_example_counterexample :
    (read_csv "a,b\n1,\"x,y\"\n".toList).map (fun csv => print_json csv false)
      = some "[\x7b\"a\": 1,\"b\": \"x,y\"\x7d]".toList ∧
    (read_csv "a,b\n1,\"x,y\"\n".toList).map (fun csv => print_json csv false)
      ≠ some "[\x7b\"a\": 1, \"b\": \"x,y\"\x7d]".toList := by
  constructor <;> decide

/-- C12, amended. On the header line `a,b` and the single data line
`1,"x,y"`, with or without a final line feed, `read_csv` followed by
`print_json` in compact mode produces exactly `[{"a": 1,"b": "x,y"}]`, and
`main` prints that text followed by one line feed. -/
theorem end_to_end_example :
    (read_csv "a,b\n1,\"x,y\"\n".toList).map (fun csv => print_json csv false)
      = some "[\x7b\"a\": 1,\"b\": \"x,y\"\x7d]".toList ∧
    (read_csv "a,b\n1,\"x,y\"".toList).map (fun csv => print_json csv false)
      = some "[\x7b\"a\": 1,\"b\": \"x,y\"\x7d]".toList ∧
    (∀ platform_info,
      main (fun name => if name = "in.csv".toList then some "a,b\n1,\"x,y\"\n".toList else none)
        platform_info ["in.csv".toList]
      = ("[\x7b\"a\": 1,\"b\": \"x,y\"\x7d]\n".toList, 0)) := by
  refine ⟨by decide, by decide, fun _ => rfl⟩


/-- C13. Styled layout: for every table, `print_json` with `styled` set
prints exactly `[`, LF, then for each row two spaces, the opening brace and
LF, for each header one line of four spaces, `"<header>": <value>`, a comma
unless it is the last header, and LF, then two spaces, the closing brace, a
comma unless it is the last row, and LF, and finally `]`, LF; so for a
non-empty table the output begins with `[`, LF, two spaces, the opening
brace, LF. -/
theorem print_json_styled_layout (csv : CSVData) :
    print_json csv true = styled_layout csv ∧
    (csv.data ≠ [] →
      ∃ rest, print_json csv true = ['[', '\n', ' ', ' ', '\x7b', '\n'] ++ rest) := by
  refine ⟨print_json_styled_eq csv, fun hne => ?_⟩
  rw [print_json_styled_eq]
  cases hd : csv.data with
  | nil => exact absurd hd hne
  | cons r rs =>
    simp only [styled_layout, hd, List.enum, List.enumFrom_cons, List.map_cons,
      List.flatten_cons]
    exact ⟨_, by simp only [List.append_assoc, List.cons_append, List.nil_append]; rfl⟩

/-- Witness of C13: the styled text of a table with two headers and rows of
two and one field. -/
theorem print_json_styled_layout_witness :
    print_json ⟨[['a'], ['b']], [[['1'], ['x']], [['2']]]⟩ true
      = ("[\n  \x7b\n    \"a\": 1,\n    \"b\": \"x\"\n  \x7d,\n".toList ++
         "  \x7b\n    \"a\": 2,\n    \"b\": \"\"\n  \x7d\n]\n".toList) ∧
    ∃ rest, print_json ⟨[['a'], ['b']], [[['1'], ['x']], [['2']]]⟩ true
      = ['[', '\n', ' ', ' ', '\x7b', '\n'] ++ rest :=
  ⟨by decide,
   (print_json_styled_layout ⟨[['a'], ['b']], [[['1'], ['x']], [['2']]]⟩).2 (by decide)⟩

/-- C14. Compact structure and framing: for every table, `print_json` in
compact mode prints `[`, one object per row separated by single commas with
no trailing comma, each object the opening brace, its members
`"<header>": <value>` separated by single commas, and the closing brace,
then `]` with no line feed after it; `main` appends exactly one line feed in
compact mode and none in styled mode, so in both modes the output of the
program starts with `[` and ends with `]` followed by one line feed. -/
theorem print_json_compact_framing (csv : CSVData) (files : List Char → Option (List Char))
    (platform_info name : List Char)
    (hr : read_csv_file files name = some csv) (hv : name ≠ "version".toList) :
    print_json csv false = compact_layout csv ∧
    main files platform_info [name] = (print_json csv false ++ ['\n'], 0) ∧
    main files platform_info ["--styled".toList, name] = (print_json csv true, 0) ∧
    main files platform_info ["-s".toList, name] = (print_json csv true, 0) ∧
    (∃ body, (main files platform_info [name]).1 = ['['] ++ body ++ [']', '\n']) ∧
    (∃ body, (main files platform_info ["--styled".toList, name]).1
      = ['['] ++ body ++ [']', '\n']) := by
  have h1 : main files platform_info [name] = (print_json csv false ++ ['\n'], 0) := by
    simp only [main, hv, if_false, hr]
  have h2 : main files platform_info ["--styled".toList, name] = (print_json csv true, 0) := by
    simp only [main, true_or, if_true, hr]
  have h3 : main files platform_info ["-s".toList, name] = (print_json csv true, 0) := by
    simp only [main, or_true, if_true, hr]
  refine ⟨print_json_compact_eq csv, h1, h2, h3, ?_, ?_⟩
  · rw [h1, print_json_compact_eq]
    exact framed_compact _
  · rw [h2, print_json_styled_eq]
    exact framed_styled _

/-- Witness of C14: the program run on a file holding a header line and one
data line. -/
theorem print_json_compact_framing_witness :
    main (fun name => if name = "in.csv".toList then some "a,b\n1,x\n".toList else none)
        [] ["in.csv".toList]
      = ("[\x7b\"a\": 1,\"b\": \"x\"\x7d]\n".toList, 0) ∧
    main (fun name => if name = "in.csv".toList then some "a,b\n1,x\n".toList else none)
        [] ["--styled".toList, "in.csv".toList]
      = ("[\n  \x7b\n    \"a\": 1,\n    \"b\": \"x\"\n  \x7d\n]\n".toList, 0) :=
  have h := print_json_compact_framing ⟨[['a'], ['b']], [[['1'], ['x']]]⟩
    (fun name => if name = "in.csv".toList then some "a,b\n1,x\n".toList else none)
    [] "in.csv".toList (by decide) (by decide)
  ⟨h.2.1, h.2.2.1⟩


/-- C15, as stated, fails: the call that prints a key writes a space after
the colon in compact mode too.  The table with header `a` and the row `1`
is printed as `[{"a": 1}]`, with a space that is neither in the header
name nor in the rendered value. -/
theorem compact_whitespace_counterexample :
    print_json ⟨[['a']], [[['1']]]⟩ false = "[\x7b\"a\": 1\x7d]".toList ∧
    ' ' ∈ print_json ⟨[['a']], [[['1']]]⟩ false ∧
    ' ' ∉ ['a'] ∧ ' ' ∉ print_json_value ['1'] ∧
    ¬ (∀ csv : CSVData, ∀ t ∈ print_json_calls csv false,
        ∀ c ∈ inserted t, is_space c = false) := by
  refine ⟨by decide, by decide, by decide, by decide, fun h => ?_⟩
  have h2 := h ⟨[['a']], [[['1']]]⟩ (Tok.key ['a']) (by decide) ' ' (by decide)
  revert h2
  decide

/-- C15, amended. In compact mode the text `print_json` prints around the
header names and the rendered values holds no tab and no line feed, and its
only spaces are the single space that follows the colon of each key: every
punctuation call prints one of `[`, `]`, the two braces and `,`, and every
key call prints the header between double quotes, a colon and one space. -/
theorem compact_whitespace (csv : CSVData) (t : Tok) (ht : t ∈ print_json_calls csv false) :
    (∀ c ∈ inserted t, c ≠ '\t' ∧ c ≠ '\n' ∧
      (c = ' ' → ∃ h, t = Tok.key h ∧ t.text = [DQ] ++ h ++ [DQ, ':', ' '])) ∧
    (∀ s, t = Tok.punct s →
      s = ['['] ∨ s = [']'] ∨ s = ['\x7b'] ∨ s = ['\x7d'] ∨ s = [',']) := by
  have hp := compactPunct_calls csv t ht
  refine ⟨?_, hp⟩
  intro c hc
  cases t with
  | punct s =>
    simp only [inserted] at hc
    rcases hp s rfl with h | h | h | h | h <;> subst h <;>
      simp only [List.mem_singleton] at hc <;> subst hc <;>
      exact ⟨by decide, by decide, fun e => absurd e (by decide)⟩
  | key h =>
    simp only [inserted, List.mem_cons, List.mem_singleton, List.not_mem_nil, or_false] at hc
    have h3 : c ≠ '\t' ∧ c ≠ '\n' := by
      rcases hc with e | e | e | e <;> subst e <;> decide
    exact ⟨h3.1, h3.2, fun _ => ⟨h, rfl, rfl⟩⟩
  | value v => simp [inserted] at hc

/-- Witness of C15 (amended) at the key call of the table with header `a`. -/
theorem compact_whitespace_witness :
    (∀ c ∈ inserted (Tok.key ['a']), c ≠ '\t' ∧ c ≠ '\n' ∧
      (c = ' ' → ∃ h, Tok.key ['a'] = Tok.key h ∧
        (Tok.key ['a']).text = [DQ] ++ h ++ [DQ, ':', ' '])) ∧
    (∀ s, Tok.key ['a'] = Tok.punct s →
      s = ['['] ∨ s = [']'] ∨ s = ['\x7b'] ∨ s = ['\x7d'] ∨ s = [',']) :=
  compact_whitespace ⟨[['a']], [[['1']]]⟩ (Tok.key ['a']) (by decide)


/-- C16. Unquoted splitting is split-on-comma plus trim, with the
trailing-delimiter rule: for every non-empty line with no double and no
single quote, `parse_csv_line` returns the pieces of the line split at every
`,`, each trimmed of leading and trailing spaces and tabs, the final empty
piece being dropped exactly when the line ends with `,`.  So `a,b,` gives
`a`, `b`; `a,b, ` gives `a`, `b` and the empty field; `a,,b` gives `a`, the
empty field, `b`; and a line of spaces and tabs only gives exactly one
empty field. -/
theorem parse_csv_line_unquoted (line : List Char) (hne : line ≠ [])
    (hd : DQ ∉ line) (hs : SQ ∉ line) :
    parse_csv_line line
      = some ((if line.getLast? = some ',' then (line.splitOn ',').dropLast
               else line.splitOn ',').map trimmed) ∧
    ((∀ c ∈ line, c = ' ' ∨ c = '\t') → parse_csv_line line = some [[]]) ∧
    parse_csv_line "a,b,".toList = some ["a".toList, "b".toList] ∧
    parse_csv_line "a,b, ".toList = some ["a".toList, "b".toList, []] ∧
    parse_csv_line "a,,b".toList = some ["a".toList, [], "b".toList] := by
  have hmain := parse_csv_line_unquoted_aux line.length line (le_refl _) hne hd hs
  refine ⟨hmain, ?_, by decide, by decide, by decide⟩
  intro hb
  have hblank : ∀ c ∈ line, is_blank c = true := by
    intro c hc
    rcases hb c hc with h | h <;> subst h <;> decide
  have hx : ∀ x ∈ line, ¬ ((x == ',') = true) := by
    intro x hx
    rcases hb x hx with h | h <;> subst h <;> decide
  have hsp : line.splitOn ',' = [line] := List.splitOnP_eq_single _ _ hx
  have hlast : line.getLast? ≠ some ',' := fun e =>
    hx ',' (List.mem_of_getLast?_eq_some e) (by simp)
  rw [hmain]
  simp [unquoted_fields, hsp, hlast, trimmed_all_blank line hblank]

/-- Witness of C16: a line with blanks around its pieces, an empty piece and
a final comma. -/
theorem parse_csv_line_unquoted_witness :
    parse_csv_line " a b ,\t,c ,".toList = some ["a b".toList, [], "c".toList] :=
  (parse_csv_line_unquoted " a b ,\t,c ,".toList (by decide) (by decide) (by decide)).1.trans
    (by decide)


/-- C17, as stated, fails: after the quote that closes the quoted region the
field loop keeps appending characters up to the next comma, quote characters
included.  The line `"a"b"` gives the field `ab"`: the field holds the
quote character although the line has no doubled quote. -/
theorem quoted_field_stray_quote_counterexample :
    parse_csv_line "\"a\"b\"".toList = some ["ab\"".toList] ∧
    ¬ ([DQ, DQ] <:+: "\"a\"b\"".toList) ∧
    ¬ (∀ (p : List Char) (q : Char) (rest : List Char), IsQuote q → skip_ws p = q :: rest →
        q ∈ (parse_one_field p).1 → [q, q] <:+: p) := by
  refine ⟨by decide, by decide, fun h => ?_⟩
  have h2 := h "\"a\"b\"".toList DQ "a\"b\"".toList (by decide) (by decide) (by decide)
  revert h2
  decide

/-- C17, amended. For every field whose raw text begins, after leading
spaces and tabs, with a quote character `q`: the opening quote and the quote
that closes the quoted region are not part of the field value, and every `q`
taken from the quoted region comes from a doubled pair `qq`; the characters
between the closing quote and the next comma are appended as they are.
Either the region runs to the end of the line and the value is its
un-doubled body `s`, or the region is closed and the value is `s` followed
by the text up to the next comma, both trimmed of spaces and tabs. -/
theorem quoted_field_value (p : List Char) (q : Char) (rest : List Char)
    (hq : IsQuote q) (hp : skip_ws p = q :: rest) :
    (∃ s, rest = double_quotes q s ∧ parse_one_field p = (trimmed s, [])) ∨
    (∃ s tail, rest = double_quotes q s ++ q :: tail ∧ tail.head? ≠ some q ∧
      parse_one_field p
        = (trimmed (s ++ tail.takeWhile (fun c => c != ',')),
           skip_comma (tail.dropWhile (fun c => c != ',')))) := by
  rcases quoted_region_cases q rest.length rest (le_refl _) with ⟨s, hs⟩ | ⟨s, tail, hs, ht⟩
  · exact Or.inl ⟨s, hs, parse_one_field_unterminated p q s hq (by rw [hp, hs])⟩
  · exact Or.inr ⟨s, tail, hs, ht, parse_one_field_closed p q s tail hq ht (by rw [hp, hs])⟩

/-- Witness of C17 (amended): the field ` "a""b" c,d`, whose region is closed
and followed by ` c` before the comma. -/
theorem quoted_field_value_witness :
    (∃ s, "a\"\"b\" c,d".toList = double_quotes DQ s ∧
      parse_one_field " \"a\"\"b\" c,d".toList = (trimmed s, [])) ∨
    (∃ s tail, "a\"\"b\" c,d".toList = double_quotes DQ s ++ DQ :: tail ∧
      tail.head? ≠ some DQ ∧
      parse_one_field " \"a\"\"b\" c,d".toList
        = (trimmed (s ++ tail.takeWhile (fun c => c != ',')),
           skip_comma (tail.dropWhile (fun c => c != ',')))) :=
  quoted_field_value " \"a\"\"b\" c,d".toList DQ "a\"\"b\" c,d".toList (by decide) (by decide)


/-- C18. End-of-input signalling and progress: `read_csv_line` returns no
line if and only if the remaining input is empty; on every non-empty input
it returns a line (possibly zero-length, as on an input that starts with a
line feed) and leaves strictly less input; so the row loop of `read_csv`
ends on every input, and `read_csv` returns a table. -/
theorem read_csv_line_end_of_input (file : List Char) :
    ((read_csv_line file).1 = none ↔ file = []) ∧
    (file ≠ [] → (∃ line, (read_csv_line file).1 = some line) ∧
      (read_csv_line file).2.length < file.length) ∧
    read_csv_line ['\n', 'x'] = (some [], ['x']) ∧
    (∀ data, ∃ rows, read_csv_rows (file.length + 1) file data = some rows) ∧
    (∃ csv, read_csv file = some csv) :=
  ⟨read_csv_line_none_iff file, read_csv_line_progress file, by decide,
    fun data => read_csv_rows_total _ file data (Nat.lt_succ_self _), read_csv_total file⟩

/-- Witness of C18 on the input `a`, LF, `b`. -/
theorem read_csv_line_end_of_input_witness :
    (∃ line, (read_csv_line ['a', '\n', 'b']).1 = some line) ∧
    (read_csv_line ['a', '\n', 'b']).2.length < ['a', '\n', 'b'].length :=
  (read_csv_line_end_of_input ['a', '\n', 'b']).2.1 (by decide)

/-- C19, as stated, fails: the line returned is a C string and ends at the
first NUL byte of the buffer.  On the input `a`, NUL, `b`, LF the line
returned is `a` and nothing is left unread, so the input is not the line, a
line end and the rest. -/
theorem read_csv_line_keeps_characters_counterexample :
    read_csv_line ['a', NUL, 'b', '\n'] = (some ['a'], []) ∧
    ¬ (∀ file line rest : List Char, read_csv_line file = (some line, rest) →
        ∃ t, IsLineEnd t ∧ file = line ++ t ++ rest) := by
  refine ⟨by decide, fun h => ?_⟩
  obtain ⟨t, ht, he⟩ := h ['a', NUL, 'b', '\n'] ['a'] [] (by decide)
  rcases ht with h | h | h | h <;> subst h <;> revert he <;> decide

/-- C19, amended. For every input, quotes balanced or not: if
`read_csv_line` returns `line` and leaves `rest` unread, then the input is
`buf` + `t` + `rest` for the buffer `buf` filled by the loop and some `t`
among the empty string, LF, CR and CR LF, and `line` is `buf` cut at its
first NUL byte; so for an input with no NUL byte the input is
`line` + `t` + `rest`, opening, closing and doubled quote characters
included. -/
theorem read_csv_line_keeps_characters (file line rest : List Char)
    (h : read_csv_line file = (some line, rest)) :
    (∃ buf t, IsLineEnd t ∧ file = buf ++ t ++ rest ∧ line = cstr buf) ∧
    (NUL ∉ file → ∃ t, IsLineEnd t ∧ file = line ++ t ++ rest) := by
  obtain ⟨buf, t, h1, h2, h3⟩ := read_csv_line_decomp file line rest h
  refine ⟨⟨buf, t, h1, h2, h3⟩, fun hn => ⟨t, h1, ?_⟩⟩
  have hb : NUL ∉ buf := by
    intro hm
    apply hn
    rw [h2]
    simp [hm]
  rw [h3, cstr_eq_self buf hb]
  exact h2

/-- Witness of C19 (amended): an input with mixed quotes, the last one never
closed, so that the line runs to the end of input over a line feed. -/
theorem read_csv_line_keeps_characters_witness :
    ∃ t, IsLineEnd t ∧
      ['a', DQ, 'b', DQ, SQ, 'c', '\n', 'd']
        = ['a', DQ, 'b', DQ, SQ, 'c', '\n', 'd'] ++ t ++ [] :=
  (read_csv_line_keeps_characters ['a', DQ, 'b', DQ, SQ, 'c', '\n', 'd']
    ['a', DQ, 'b', DQ, SQ, 'c', '\n', 'd'] [] (by decide)).2 (by decide)

/-- C20, as stated, fails: `is_numeric` is a character check and accepts
tokens that are not JSON numbers.  The fields `+5` and `.` are classified
numeric and copied bare, and neither is a JSON number token. -/
theorem unquoted_values_not_json_numbers_counterexample :
    is_numeric "+5".toList = true ∧ print_json_value "+5".toList = "+5".toList ∧
    ¬ JsonNumber "+5".toList ∧
    is_numeric ".".toList = true ∧ print_json_value ".".toList = ".".toList ∧
    ¬ JsonNumber ".".toList ∧
    ¬ (∀ v : List Char, v ≠ [] → is_numeric v = true → JsonNumber v) := by
  have h1 : ¬ JsonNumber "+5".toList := by
    intro h
    rcases jsonNumber_head _ h with e | ⟨d, e, hd⟩
    · revert e; decide
    · have : d = '+' := by
        have e2 : some '+' = some d := e
        exact (Option.some.inj e2).symm
      subst this
      revert hd; decide
  have h2 : ¬ JsonNumber ".".toList := by
    intro h
    rcases jsonNumber_head _ h with e | ⟨d, e, hd⟩
    · revert e; decide
    · have : d = '.' := by
        have e2 : some '.' = some d := e
        exact (Option.some.inj e2).symm
      subst this
      revert hd; decide
  exact ⟨by decide, by decide, h1, by decide, by decide, h2,
    fun h => h1 (h _ (by decide) (by decide))⟩

/-- C20, amended. Every well-formed JSON number token (an optional `-`, an
integer part that is `0` or a non-zero digit followed by digits, then
optionally `.` followed by at least one digit) is classified numeric and
copied as it is, without quotes.  The converse does not hold: a non-empty
field for which `is_numeric` holds is copied as it is and consists of an
optional leading `+` or `-` followed only by ASCII digits and at most one
`.`, which need not be a JSON number. -/
theorem unquoted_values_and_json_numbers (v : List Char) :
    (JsonNumber v → is_numeric v = true ∧ print_json_value v = v) ∧
    (v ≠ [] → is_numeric v = true →
      print_json_value v = v ∧
      ∃ sign body, v = sign ++ body ∧ (sign = [] ∨ sign = ['+'] ∨ sign = ['-']) ∧
        (∀ c ∈ body, isdigit c = true ∨ c = '.') ∧ body.count '.' ≤ 1) := by
  constructor
  · intro h
    have hn := is_numeric_of_jsonNumber v h
    exact ⟨hn, print_json_value_numeric v (jsonNumber_ne_nil v h) hn⟩
  · intro hne hn
    refine ⟨print_json_value_numeric v hne hn, ?_⟩
    rcases (is_numeric_iff v).mp hn with ⟨sign, body, h1, h2, _, h4, h5⟩ | h | h
    · exact ⟨sign, body, h1, h2, h4, h5⟩
    · exact ⟨['-'], [], by simp [h], Or.inr (Or.inr rfl), by simp, by simp⟩
    · exact ⟨['+'], [], by simp [h], Or.inr (Or.inl rfl), by simp, by simp⟩

/-- Witness of C20 (amended): the JSON number `-10.25` is copied bare, and so
is the field `007`, which is numeric for `is_numeric`. -/
theorem unquoted_values_and_json_numbers_witness :
    (is_numeric "-10.25".toList = true ∧ print_json_value "-10.25".toList = "-10.25".toList) ∧
    print_json_value "007".toList = "007".toList :=
  ⟨(unquoted_values_and_json_numbers "-10.25".toList).1
      ⟨['-'], ['1', '0'], ['.', '2', '5'], by decide, Or.inr rfl,
        Or.inr ⟨'1', ['0'], rfl, by decide, by decide, by decide⟩,
        Or.inr ⟨['2', '5'], rfl, by decide, by decide⟩⟩,
   ((unquoted_values_and_json_numbers "007".toList).2 (by decide) (by decide)).1⟩


/-- C21. Header names are printed as object keys as they are: for every
table and in both modes, the text of a member is the indent, a double quote,
the header with its bytes unchanged, a double quote, a colon, a space, the
value, and the separator; none of the five escapes of `print_json_value` is
applied to the header, so a header holding a double quote, a backslash and a
line feed appears raw inside the key, while the same text as a field value
is escaped. -/
theorem print_json_keys_verbatim (csv : CSVData) (styled : Bool) (row : List (List Char))
    (j : Nat) (hj : j < csv.headers.length) :
    render (print_json_member csv styled row j)
      = (if styled = true then [' ', ' ', ' ', ' '] else []) ++
        ([DQ] ++ csv.headers.getD j [] ++ [DQ, ':', ' '] ++
          (if j < row.length then print_json_value (row.getD j []) else [DQ, DQ])) ++
        (if j + 1 < csv.headers.length then [','] else []) ++
        (if styled = true then ['\n'] else []) ∧
    (∀ t ∈ print_json_calls csv styled, ∀ h, t = Tok.key h → t.text = [DQ] ++ h ++ [DQ, ':', ' ']) ∧
    keys_of (print_json_calls csv styled)
      = (List.replicate csv.data.length csv.headers).flatten ∧
    print_json ⟨[['a', DQ, BSL, '\n', 'b']], [[['a', DQ, BSL, '\n', 'b']]]⟩ false
      = ['[', '\x7b'] ++ [DQ, 'a', DQ, BSL, '\n', 'b', DQ, ':', ' '] ++
        [DQ, 'a', BSL, DQ, BSL, BSL, BSL, 'n', 'b', DQ] ++ ['\x7d', ']'] := by
  refine ⟨render_member csv styled row j hj, ?_, ?_, by decide⟩
  · intro t _ h ht
    subst ht
    rfl
  · simp [print_json_calls, keys_of_append, keys_of_if_styled, keys_of_objects, keys_of]

/-- Witness of C21: the key of the second header of a table whose headers
hold a double quote and a backslash. -/
theorem print_json_keys_verbatim_witness :
    render (print_json_member ⟨[['x'], [DQ, BSL]], [[['1'], ['2']]]⟩ true [['1'], ['2']] 1)
      = [' ', ' ', ' ', ' '] ++ [DQ, DQ, BSL, DQ, ':', ' '] ++ ['2'] ++ ['\n'] :=
  (print_json_keys_verbatim ⟨[['x'], [DQ, BSL]], [[['1'], ['2']]]⟩ true [['1'], ['2']] 1
    (by decide)).1.trans (by decide)


/-- C22. Styled and compact output differ only in layout whitespace: for
every table, removing every space, line feed and tab (what the test helper
`compare_json_output` does) from the styled text of `print_json` gives the
same string as removing them from the compact text. -/
theorem styled_compact_same_modulo_whitespace (csv : CSVData) :
    strip_spaces (print_json csv true) = strip_spaces (print_json csv false) ∧
    (print_json csv true).filter (fun c => !(c == ' ' || c == '\n' || c == '\t'))
      = (print_json csv false).filter (fun c => !(c == ' ' || c == '\n' || c == '\t')) := by
  have h := strip_spaces_print_json csv
  refine ⟨h, ?_⟩
  rw [strip_spaces_eq_filter, strip_spaces_eq_filter] at h
  exact h


/-- C23. `parse_csv_line` is total and its field count is bounded by the
input: on every line, quotes closed or not, every pass of the outer loop
moves `ptr` forward by at least one character and the field accumulation
loop never moves it back, so the function returns; it returns zero fields
for the zero-length line and, for a non-empty line of `n` characters,
between 1 and `n` fields.  Hence every row stored by `read_csv` has at least
one field. -/
theorem parse_csv_line_total_and_bounded (line : List Char) :
    (∀ c rest, (parse_one_field (c :: rest)).2.length < (c :: rest).length) ∧
    (∀ inq q field p, (parse_field_loop inq q field p).2.length ≤ p.length) ∧
    (∃ fields, parse_csv_line line = some fields ∧
      (line = [] → fields = []) ∧
      (line ≠ [] → 1 ≤ fields.length ∧ fields.length ≤ line.length)) ∧
    (∀ file csv, read_csv file = some csv → ∀ row ∈ csv.data, 1 ≤ row.length) := by
  refine ⟨parse_one_field_length, parse_field_loop_length, ?_, ?_⟩
  · obtain ⟨fields, hf⟩ := parse_csv_line_total line
    have hc := parse_csv_line_count line.length line fields (le_refl _) hf
    refine ⟨fields, hf, ?_, fun hne => ⟨hc.2 hne, hc.1⟩⟩
    intro e
    subst e
    rw [parse_csv_line_nil] at hf
    cases hf
    rfl
  · intro file csv h row hrow
    exact List.length_pos.mpr (read_csv_rows_nonempty file csv h row hrow)

/-- Witness of C23: the line `,,,` has as many fields as characters, the
line `,"a,,` with a quote that is never closed has two fields, and the rows
read from a file with blank lines have one field or more. -/
theorem parse_csv_line_total_and_bounded_witness :
    (∃ fields, parse_csv_line ",,,".toList = some fields ∧
      (",,,".toList = [] → fields = []) ∧
      (",,,".toList ≠ [] → 1 ≤ fields.length ∧ fields.length ≤ ",,,".toList.length)) ∧
    parse_csv_line ",,,".toList = some [[], [], []] ∧
    parse_csv_line ",\"a,,".toList = some [[], "a,,".toList] ∧
    (∀ row ∈ [["1".toList], [[]]], 1 ≤ row.length) :=
  ⟨(parse_csv_line_total_and_bounded ",,,".toList).2.2.1, by decide, by decide,
   (parse_csv_line_total_and_bounded []).2.2.2 "h\n\n1\n\n \n".toList
     ⟨["h".toList], [["1".toList], [[]]]⟩ (by decide)⟩

/-- C24. The invariant of the claim fails in `read_csv_line`: the capacity
is checked once at the top of an iteration, and an escaped doubled quote
then appends two bytes.  On the input of 256 bytes made of a double quote,
253 letters and a doubled double quote, the loop is left with length 256 and
capacity 256, after an iteration of the run; the buffer of the reading loop
holds 256 bytes, a line is returned, and the terminator is written at index
256, one past the end of the buffer.  What does hold on every input is the
weaker bound: after every iteration the length is at most the capacity, so
the characters themselves are written inside the buffer. -/
theorem buffer_growth_doubled_quote :
    final_sizes 0 256 (read_csv_line_sizes false NUL 0 256 doubled_quote_at_254)
      = (256, 256) ∧
    (256, 256) ∈ read_csv_line_sizes false NUL 0 256 doubled_quote_at_254 ∧
    (read_csv_line_loop false NUL [] doubled_quote_at_254).1.length = 256 ∧
    (∃ line, (read_csv_line doubled_quote_at_254).1 = some line) ∧
    ¬ (∀ file : List Char, ∀ s ∈ read_csv_line_sizes false NUL 0 256 file, s.1 ≤ s.2 - 1) ∧
    (∀ file : List Char, ∀ s ∈ read_csv_line_sizes false NUL 0 256 file, s.1 ≤ s.2) := by
  have hfin := final_sizes_doubled_quote_at_254
  have hmem : (256, 256) ∈ read_csv_line_sizes false NUL 0 256 doubled_quote_at_254 := by
    rcases final_sizes_mem (read_csv_line_sizes false NUL 0 256 doubled_quote_at_254) 0 256
      with h | h
    · rw [hfin] at h
      exact absurd h (by decide)
    · rw [hfin] at h
      exact h
  have hlen := final_sizes_length false NUL 0 256 doubled_quote_at_254 [] rfl
  rw [hfin] at hlen
  refine ⟨hfin, hmem, hlen.symm, (read_csv_line_progress _ (List.cons_ne_nil _ _)).1,
    ?_, ?_⟩
  · intro h
    have := h doubled_quote_at_254 (256, 256) hmem
    revert this
    decide
  · intro file s hs
    exact (sizes_le_capacity false NUL 0 256 file (by omega) (by omega) s hs).1


end CJ
